import Mathlib

/-!
# Verification of the EQcorrscan detection-aggregation core (`family.py`)

Shallow embedding of `eqcorrscan/core/match_filter/family.py`:

* the `Family` container (constructor, derived catalog, equality, sort,
  de-duplication, copy, the merge/append algebra `__add__`/`__iadd__`/`append`),
  modelled over an explicit object heap so that the in-place effects of the
  Python code (list extension, in-place sorting, lazy catalog refresh) are
  visible in the model;
* the line-oriented text codec `_write_family` / `_read_family`, modelled over
  `List Char` with exact-rational semantics for the double-precision fields
  (Python's `format(x, '.32f')` and `float(s)` are exact decimal operations on
  the value of the double; we track that exact value as a rational).

The `Detection` and `Template` classes, `get_catalog` and
`Detection._calculate_event` live in modules that are not part of the excerpt;
those definitions are modelled from the specification and are marked as such
in their doc comments.
-/

namespace EqcorrscanFamily

/-! ## Python string primitives over `List Char`

The source manipulates Python `str` values via `split`, `strip`, `rstrip`.
We model strings as `List Char` and translate those primitives directly.
-/

/-- The single-quote character `'` used by Python `repr` of strings. -/
def quoteChar : Char := Char.ofNat 39

/-- Python `str.strip()` whitespace test (space, tab, newline, carriage
return suffice for the characters that can appear here). -/
def pyWs (c : Char) : Bool :=
  c = ' ' || c = Char.ofNat 9 || c = Char.ofNat 10 || c = Char.ofNat 13

/-- Python `str.lstrip()` (whitespace). -/
def lstripWs (s : List Char) : List Char := s.dropWhile pyWs

/-- Python `str.rstrip()` (whitespace). -/
def rstripWs (s : List Char) : List Char := (s.reverse.dropWhile pyWs).reverse

/-- Python `str.strip()` (whitespace). -/
def stripWs (s : List Char) : List Char := rstripWs (lstripWs s)

/-- Python `str.rstrip('0')`: remove trailing `'0'` characters. -/
def rstrip0 (s : List Char) : List Char :=
  (s.reverse.dropWhile (fun c => c = '0')).reverse

/-- Python `str.split(sep)` for a one-character separator `sep`:
splits at every occurrence, keeping empty pieces. -/
def splitOnChar (sep : Char) : List Char → List (List Char)
  | [] => [[]]
  | c :: rest =>
    if c = sep then
      [] :: splitOnChar sep rest
    else
      match splitOnChar sep rest with
      | [] => [[c]]
      | p :: ps => (c :: p) :: ps

/-- Python `str.split(sep)` for a two-character separator `a b`
(the source splits on `": "` and `", "`): left-to-right, non-overlapping,
keeping empty pieces. -/
def splitOnPair (a b : Char) : List Char → List (List Char)
  | [] => [[]]
  | [c] => [[c]]
  | c :: d :: rest =>
    if c = a && d = b then
      [] :: splitOnPair a b rest
    else
      match splitOnPair a b (d :: rest) with
      | [] => [[c]]
      | p :: ps => (c :: p) :: ps

/-! ## Decimal digits

`str(n)` on a non-negative Python int, and the digit-string fragments of
`format(x, '.32f')`, are decimal digit runs; `float(s)` reads them back.
-/

/-- The decimal digit string of `n` (Python `str(n)` for `n : ℕ`). -/
def natDigits (n : Nat) : List Char :=
  if _h : n < 10 then [Nat.digitChar n]
  else natDigits (n / 10) ++ [Nat.digitChar (n % 10)]
  decreasing_by exact Nat.div_lt_self (by omega) (by omega)

/-- Numeric value of a decimal digit character. -/
def charVal (c : Char) : Nat := c.toNat - 48

/-- Numeric value of a run of decimal digit characters (most significant
first); leading zeros are allowed and do not change the value. -/
def digitsToNat (s : List Char) : Nat :=
  s.foldl (fun acc c => acc * 10 + charVal c) 0

/-- Left-pad a digit string with `'0'` to width `w`
(the fractional part of `format(x, '.32f')` has exactly 32 digits). -/
def padZeros (w : Nat) (s : List Char) : List Char :=
  List.replicate (w - s.length) '0' ++ s

/-! ## Exact model of CPython `float` formatting and parsing

The numeric fields `detect_val`, `threshold`, `threshold_input` hold IEEE-754
binary64 values.  Every finite binary64 value is a rational `M * 2 ^ e` with
`|M| < 2 ^ 53`, and both `format(x, '.32f')` (round the exact value
half-to-even to 32 fractional decimal digits) and `float(s)` (round the
exact decimal value of `s` to the nearest binary64, ties to even) are exact
arithmetic on those rationals.  We track the exact rational value; two
binary64 values are bit-identical (excluding NaN and the sign of zero,
which cannot arise here) exactly when their rational values are equal.
`parseFloat` below returns the exact decimal value of the string and
`roundToB64` rounds it to the nearest 53-significant-bit rational, ties to
even, with an unbounded exponent range — faithful to binary64 away from the
overflow (about `1.8e308`) and subnormal (about `2.2e-308`) thresholds,
which no decimal string of at most 32 fractional digits arising from an
in-range double approaches. -/

/-- Round a rational to the nearest integer, ties to even
(the rounding used by CPython's fixed-point `format`). -/
def roundHalfEven (q : ℚ) : ℤ :=
  let f : ℤ := ⌊q⌋
  let r : ℚ := q - f
  if r < 1 / 2 then f
  else if 1 / 2 < r then f + 1
  else if f % 2 = 0 then f else f + 1

/-- `format(q, '.32f')`: sign, integer digits, `'.'`, exactly 32 fractional
digits of the value rounded half-to-even at the 32nd fractional place. -/
def fmt32 (q : ℚ) : List Char :=
  let n : ℤ := roundHalfEven (q * 10 ^ 32)
  let a : Nat := n.natAbs
  (if q < 0 then ['-'] else []) ++
    natDigits (a / 10 ^ 32) ++ '.' :: padZeros 32 (natDigits (a % 10 ^ 32))

/-- Truncation toward zero (Python `int(x)` on a float value). -/
def pyTrunc (q : ℚ) : ℤ := if 0 ≤ q then ⌊q⌋ else -⌊-q⌋

/-- Parse an unsigned decimal form `digits`, `digits.digits`, `digits.` or
`.digits` to its exact rational value (the forms emitted by the writer;
Python `float` accepts more, e.g. exponents, which the writer never emits). -/
def parseUFloat (s : List Char) : Option ℚ :=
  let ip := s.takeWhile Char.isDigit
  match s.dropWhile Char.isDigit with
  | [] => if ip.isEmpty then none else some (digitsToNat ip : ℚ)
  | c :: frac =>
    if c = '.' && frac.all Char.isDigit && (ip.length + frac.length != 0) then
      some ((digitsToNat ip : ℚ) + (digitsToNat frac : ℚ) / 10 ^ frac.length)
    else none

/-- Parse an optionally `'-'`-signed decimal form (see `parseUFloat`). -/
def parseFloat (s : List Char) : Option ℚ :=
  match s with
  | [] => none
  | c :: rest =>
    if c = '-' then (parseUFloat rest).map (fun q => -q)
    else parseUFloat (c :: rest)

/-- The scale of the binary64 ulp grid holding a value of the magnitude of
`x`: a normalized binary64 with `2 ^ k ≤ |x| < 2 ^ (k + 1)` is an integer
multiple of `2 ^ (k - 52)`. -/
def b64Scale (x : ℚ) : ℤ := Int.log 2 |x| - 52

/-- Round a rational to the nearest binary64 value (nearest integer multiple
of its ulp `2 ^ b64Scale x`, ties to even): the correctly-rounded conversion
CPython's `float(s)` performs on the exact decimal value of `s`.  The
exponent range is unbounded (see the section comment). -/
def roundToB64 (x : ℚ) : ℚ :=
  if x = 0 then 0
  else (roundHalfEven (x / 2 ^ b64Scale x) : ℚ) * 2 ^ b64Scale x

/-- CPython `float(s)` on the decimal forms the writer emits: the exact
decimal value, correctly rounded to binary64. -/
def pyFloat (s : List Char) : Option ℚ :=
  (parseFloat s).map roundToB64

/-- `x` is the exact value of a binary64 double (of unbounded exponent
range): zero, or an integer multiple of its ulp
(at most 53 significant bits). -/
def b64Rep (x : ℚ) : Prop :=
  x = 0 ∨ (x / 2 ^ b64Scale x).den = 1

instance (x : ℚ) : Decidable (b64Rep x) := by
  unfold b64Rep
  exact inferInstance

/-- `x` is a binary64 value whose 32-fractional-digit decimal rendering
stays within half an ulp: zero, or a binary64 value of ulp at least
`2 ^ (-105)` — equivalently of magnitude at least `2 ^ (-53)`
(about `1.1e-16`).  Every realistic correlation statistic satisfies this. -/
def b64Safe (x : ℚ) : Prop :=
  x = 0 ∨ ((x / 2 ^ b64Scale x).den = 1 ∧ (-105 : ℤ) ≤ b64Scale x)

instance (x : ℚ) : Decidable (b64Safe x) := by
  unfold b64Safe
  exact inferInstance

/-! ## The data model -/

/-- Modelled from the spec: the `Detection` record (its class lives in
`eqcorrscan/core/match_filter/detection.py`, which is not part of the
excerpt).  Fields follow §3 of the spec together with the keys the codec in
`family.py` reads and writes: template identity, trigger time (an absolute
timestamp with sub-second precision, modelled as a non-negative integer
count of time units whose `str`/`UTCDateTime` round-trip is decimal),
channel count, the three binary64 statistics as exact rationals, the two
enumerated kinds as strings, the optional channel list, the optional derived
event (carried as its resource-identifier string) and the identifier. -/
structure Detection where
  template_name : List Char
  detect_time : Nat
  no_chans : Nat
  detect_val : ℚ
  threshold : ℚ
  typeofdet : List Char
  threshold_type : List Char
  threshold_input : ℚ
  chans : Option (List (List Char))
  event : Option (List Char)
  id : List Char
deriving DecidableEq

/-- Modelled from the spec: `Detection.__eq__` (not in the excerpt) —
"Equality is defined over all fields except the derived event". -/
def detEq (x y : Detection) : Bool :=
  decide (x.template_name = y.template_name ∧ x.detect_time = y.detect_time ∧
    x.no_chans = y.no_chans ∧ x.detect_val = y.detect_val ∧
    x.threshold = y.threshold ∧ x.typeofdet = y.typeofdet ∧
    x.threshold_type = y.threshold_type ∧
    x.threshold_input = y.threshold_input ∧ x.chans = y.chans ∧ x.id = y.id)

/-- Modelled from the spec: `get_catalog` (from `detection.py`, not in the
excerpt) builds the derived event summary, "one event description per
Detection, order-aligned"; each entry is the detection's derived event
description (possibly absent). -/
def get_catalog (detections : List Detection) : List (Option (List Char)) :=
  detections.map (fun d => d.event)

/-- Modelled from the spec: `Detection._calculate_event` (not in the
excerpt), the event-regeneration hook — "derives a minimal event from
template + detection metadata" and attaches it to the detection.  The
template is represented by its identity (see `FamilyObj.templateName`). -/
def calcEvent (templateName : List Char) (_estimateOrigin : Bool)
    (d : Detection) : Detection :=
  { d with event := some (templateName ++ '_' :: natDigits d.detect_time) }

/-! ## The serialization codec: `_write_family` (encode)

`_write_family` writes one `;`-separated line of `key: value` pairs per
detection, iterating `detection.__dict__.keys()`.  The attribute order of
`Detection` (set by its `__init__`, not in the excerpt) is modelled from the
spec's field order; the decoder is key-driven, so only the set of keys
matters.
-/

def kTemplateName : List Char := "template_name".data
def kDetectTime : List Char := "detect_time".data
def kNoChans : List Char := "no_chans".data
def kDetectVal : List Char := "detect_val".data
def kThreshold : List Char := "threshold".data
def kTypeofdet : List Char := "typeofdet".data
def kThresholdType : List Char := "threshold_type".data
def kThresholdInput : List Char := "threshold_input".data
def kChans : List Char := "chans".data
def kEvent : List Char := "event".data
def kId : List Char := "id".data

/-- `str(None)`. -/
def noneStr : List Char := "None".data

/-- The serialized keys, in `__dict__` order (modelled from the spec). -/
def detKeys : List (List Char) :=
  [kTemplateName, kDetectTime, kNoChans, kDetectVal, kThreshold, kTypeofdet,
   kThresholdType, kThresholdInput, kChans, kEvent, kId]

/-- `", "`-join (the element separator of Python `repr` on a list). -/
def joinCS : List (List Char) → List Char
  | [] => []
  | [s] => s
  | s :: rest => s ++ ',' :: ' ' :: joinCS rest

/-- Python `repr` of a channel-identifier list (`str(detection.chans)` in
`_write_family`; list elements are rendered single-quoted and
`", "`-separated); `str(None)` when the optional list is absent. -/
def chansRepr (co : Option (List (List Char))) : List Char :=
  match co with
  | none => noneStr
  | some l =>
    '[' :: (joinCS (l.map (fun s => quoteChar :: s ++ [quoteChar]))) ++ [']']

/-- The event value `_write_family` renders: `str(event.resource_id)` when
an event is attached, `str(None)` otherwise. -/
def eventStr (ev : Option (List Char)) : List Char :=
  match ev with
  | some e => e
  | none => noneStr

/-- The `value` string `_write_family` renders for key `k` of detection `d`:
the event is rendered as its resource identifier when present, the three
binary64 statistics via `format(x, '.32f').rstrip('0')`, everything else via
`str`. -/
def fieldStr (d : Detection) (k : List Char) : List Char :=
  if k = kEvent then eventStr d.event
  else if k = kThreshold then rstrip0 (fmt32 d.threshold)
  else if k = kDetectVal then rstrip0 (fmt32 d.detect_val)
  else if k = kThresholdInput then rstrip0 (fmt32 d.threshold_input)
  else if k = kTemplateName then d.template_name
  else if k = kDetectTime then natDigits d.detect_time
  else if k = kNoChans then natDigits d.no_chans
  else if k = kTypeofdet then d.typeofdet
  else if k = kThresholdType then d.threshold_type
  else if k = kChans then chansRepr d.chans
  else if k = kId then d.id
  else []

/-- One `key: value; ` fragment of a line of `_write_family`. -/
def encPiece (k v : List Char) : List Char :=
  k ++ ':' :: ' ' :: v ++ [';', ' ']

/-- One line of `_write_family`:
`det_str += key + ': ' + value + '; '` over all keys. -/
def encodeLine (d : Detection) : List Char :=
  (detKeys.map (fun k => encPiece k (fieldStr d k))).flatten

/-- `_write_family`: one line per detection (the trailing `'\n'` written per
line and removed again by `splitlines` on read is left implicit: the file is
modelled as its list of lines). -/
def writeFamily (detections : List Detection) : List (List Char) :=
  detections.map encodeLine

/-! ## The serialization codec: `_read_family` (decode) -/

/-- The decode-time failure modes of `_read_family` (spec §7 taxonomy):
`malformed` models the `ValueError` raised by `float`/`UTCDateTime`/
`ast.literal_eval` on an unparsable value — the exception message carries
the offending *value* string (CPython's
`could not convert string to float: ...`), which is what the constructor
records; `lookupFailure` models the `IndexError` of the `[0]` on an empty
event-lookup comprehension; `typeError` models the `TypeError` of
`Detection(**det_dict)` on unexpected or missing keyword arguments. -/
inductive DecErr where
  | malformed (value : List Char)
  | lookupFailure
  | typeError
deriving DecidableEq

/-- The mutable per-line decoding state of `_read_family`: the `det_dict`
under construction (one optional slot per recognized key, plus the list of
unrecognized keys that were inserted and will make `Detection(**det_dict)`
fail), and the `gen_event` flag. -/
structure PState where
  template_name : Option (List Char) := none
  detect_time : Option Nat := none
  no_chans : Option Nat := none
  detect_val : Option ℚ := none
  threshold : Option ℚ := none
  typeofdet : Option (List Char) := none
  threshold_type : Option (List Char) := none
  threshold_input : Option ℚ := none
  chans : Option (Option (List (List Char))) := none
  event : Option (List Char) := none
  id : Option (List Char) := none
  unknown : List (List Char) := []
  genEvent : Bool := false
deriving DecidableEq

/-- Modelled from the spec: the `UTCDateTime(value)` parse of a trigger
time; inverse of the decimal rendering used in `fieldStr` (obspy's
`str`/`UTCDateTime` round-trip, the library itself being external). -/
def utcParse (v : List Char) : Option Nat :=
  if v ≠ [] ∧ v.all Char.isDigit then some (digitsToNat v) else none

/-- Strip the single quotes off one rendered list element. -/
def unquote (piece : List Char) : Option (List Char) :=
  match piece with
  | c :: cs =>
    if c = quoteChar ∧ cs ≠ [] ∧ cs.getLast? = some quoteChar then
      some cs.dropLast
    else none
  | [] => none

/-- `unquote` over every piece, failing if any piece fails. -/
def unquoteList : List (List Char) → Option (List (List Char))
  | [] => some []
  | p :: ps =>
    match unquote p, unquoteList ps with
    | some s, some rest => some (s :: rest)
    | _, _ => none

/-- Python `ast.literal_eval(value)` restricted to the literal shapes
`str(chans)` emits: `None`, `[]`, or a `", "`-separated list of
single-quoted strings (the stdlib function is external; this models its
behaviour on the writer's image and rejects other inputs). -/
def chansParse (v : List Char) : Option (Option (List (List Char))) :=
  if v = noneStr then some none
  else
    match v with
    | '[' :: rest =>
      if rest.getLast? = some ']' then
        let inner := rest.dropLast
        if inner = [] then some (some [])
        else (unquoteList (splitOnPair ',' ' ' inner)).map some
      else none
    | _ => none

/-- The key-dispatch of the inner loop of `_read_family`, applied to the
already-extracted and stripped `key` and `value`: dispatch exactly as the
source does (the
`key in ['template_name', 'typeofdet', 'id', 'threshold_type']` membership
test is flattened into one branch per member). -/
def parsePairKV (all_cat : List (List Char)) (st : PState)
    (key value : List Char) : Except DecErr PState :=
  if key = kEvent then
    if all_cat.length = 0 then .ok { st with genEvent := true }
    else
      match all_cat.find? (fun e => (splitOnChar '/' e).getLastD [] = value) with
      | some el => .ok { st with event := some el }
      | none => .error .lookupFailure
  else if key = kDetectTime then
    match utcParse value with
    | some t => .ok { st with detect_time := some t }
    | none => .error (.malformed value)
  else if key = kChans then
    match chansParse value with
    | some c => .ok { st with chans := some c }
    | none => .error (.malformed value)
  else if key = kTemplateName then .ok { st with template_name := some value }
  else if key = kTypeofdet then .ok { st with typeofdet := some value }
  else if key = kId then .ok { st with id := some value }
  else if key = kThresholdType then .ok { st with threshold_type := some value }
  else if key = kNoChans then
    match pyFloat value with
    | some q => .ok { st with no_chans := some (pyTrunc q).toNat }
    | none => .error (.malformed value)
  else if key = [] then .ok st
  else
    match pyFloat value with
    | some q =>
      if key = kDetectVal then .ok { st with detect_val := some q }
      else if key = kThreshold then .ok { st with threshold := some q }
      else if key = kThresholdInput then .ok { st with threshold_input := some q }
      else .ok { st with unknown := key :: st.unknown }
    | none => .error (.malformed value)

/-- The body of the inner `for key_pair in line.rstrip().split(';')` loop of
`_read_family`: extract `key`/`value` via `split(': ')[0]`/`[-1]` and
`strip()`, then dispatch on the key. -/
def parsePair (all_cat : List (List Char)) (st : PState) (pair : List Char) :
    Except DecErr PState :=
  let parts := splitOnPair ':' ' ' pair
  parsePairKV all_cat st (stripWs (parts.headD [])) (stripWs (parts.getLastD []))

/-- Run `parsePair` over the pieces of one line, aborting on the first
error (the source has no `try`: the exception propagates). -/
def parsePairs (all_cat : List (List Char)) (st : PState) :
    List (List Char) → Except DecErr PState
  | [] => .ok st
  | p :: ps =>
    match parsePair all_cat st p with
    | .ok st2 => parsePairs all_cat st2 ps
    | .error e => .error e

/-- `Detection(**det_dict)`: modelled from the spec, the eight scalar
fields are required constructor arguments, `chans`/`event` default to
absent, `id` is always serialized and is required here; an unrecognized key
in the dict makes the call fail (`TypeError`). -/
def buildDetection (st : PState) : Except DecErr Detection :=
  if st.unknown ≠ [] then .error .typeError
  else
    match st.template_name, st.detect_time, st.no_chans, st.detect_val,
        st.threshold, st.typeofdet, st.threshold_type, st.threshold_input,
        st.id with
    | some tn, some dt, some nc, some dv, some th, some ty, some tt, some ti,
        some i =>
      .ok ⟨tn, dt, nc, dv, th, ty, tt, ti, st.chans.getD none, st.event, i⟩
    | _, _, _, _, _, _, _, _, _ => .error .typeError

/-- Process one line of `_read_family`: split on `';'` after `rstrip()`,
fold the pairs, construct the detection, and run the event-regeneration
hook when `gen_event` was set. -/
def parseLine (all_cat : List (List Char)) (templateName : List Char)
    (estimateOrigin : Bool) (line : List Char) : Except DecErr Detection := do
  let st ← parsePairs all_cat {} (splitOnChar ';' (rstripWs line))
  let d ← buildDetection st
  return if st.genEvent then calcEvent templateName estimateOrigin d else d

instance {ε α : Type} [DecidableEq ε] [DecidableEq α] :
    DecidableEq (Except ε α) := fun x y =>
  match x, y with
  | .ok a, .ok b =>
    if h : a = b then .isTrue (by rw [h]) else .isFalse (by simp [h])
  | .ok _, .error _ => .isFalse (by simp)
  | .error _, .ok _ => .isFalse (by simp)
  | .error e, .error f =>
    if h : e = f then .isTrue (by rw [h]) else .isFalse (by simp [h])

/-- `_read_family`: decode the lines in order, aborting on the first
failing line rather than skipping it. -/
def readFamily (lines : List (List Char)) (all_cat : List (List Char))
    (templateName : List Char) (estimateOrigin : Bool) :
    Except DecErr (List Detection) :=
  match lines with
  | [] => .ok []
  | l :: ls =>
    match parseLine all_cat templateName estimateOrigin l with
    | .ok d => (readFamily ls all_cat templateName estimateOrigin).map (d :: ·)
    | .error e => .error e

/-! ## The `Family` container over an explicit object heap

Python `Family` objects are mutable references; `__iadd__`, `sort`, `_uniq`
and the lazy catalog refresh mutate them in place, while `copy`
(`copy.deepcopy`) allocates an independent object.  We model the object
store explicitly: a heap of `FamilyObj` states addressed by allocation
index.  `Detection` values are immutable by convention (spec §2) and are
stored as plain values.

The `Template` class is not part of the excerpt; modelled from the spec, a
template is represented by its stable identity (`Template.name`), and
template equality (`Template.__eq__`) is identity equality — "Succeeds only
if both share the same template identity".
-/

/-- The state of one `Family` object: its template identity, its detection
list, and the private lazily-maintained catalog cache (`Family.__catalog`).
-/
structure FamilyObj where
  templateName : List Char
  detections : List Detection
  catalogCache : List (Option (List Char))
deriving DecidableEq, Inhabited

/-- The object heap: `Family` objects addressed by allocation index.
Reading an unallocated index yields the default (empty) object; writing one
is a no-op — operations on live objects never do either. -/
structure Heap where
  objs : List FamilyObj
deriving DecidableEq

/-- Dereference. -/
def Heap.get (h : Heap) (r : Nat) : FamilyObj := h.objs.getD r default

/-- Overwrite the object at `r`. -/
def Heap.set (h : Heap) (r : Nat) (f : FamilyObj) : Heap := ⟨h.objs.set r f⟩

/-- Allocate a fresh object, returning its reference. -/
def Heap.alloc (h : Heap) (f : FamilyObj) : Heap × Nat :=
  (⟨h.objs ++ [f]⟩, h.objs.length)

/-- The `detections` argument of `Family.__init__`: `None`, a single
`Detection`, or a list. -/
inductive DetArg where
  | noneArg
  | one (d : Detection)
  | many (l : List Detection)

/-- `detections or []` after the `isinstance(detections, Detection)`
normalization in `Family.__init__` (an empty list is falsy). -/
def normalizeDets : DetArg → List Detection
  | .noneArg => []
  | .one d => [d]
  | .many l => l

/-- `Family.__init__`: stores the template and normalized detections,
derives `__catalog` from the detections via `get_catalog`, and — when a
`catalog` argument is supplied and truthy (an empty catalog is falsy) —
only logs a warning, returned here as the `Bool` component; the supplied
catalog value is never stored. -/
def famInit (templateName : List Char) (detections : DetArg)
    (catalog : Option (List (Option (List Char)))) : FamilyObj × Bool :=
  let dets := normalizeDets detections
  (⟨templateName, dets, get_catalog dets⟩,
    match catalog with
    | some c => c.length != 0
    | none => false)

/-- The errors of the `Family` algebra (spec §7 taxonomy): the
`NotImplementedError('Templates do not match')` of `__iadd__`, its
`NotImplementedError('Can only extend with a Detection or Family object.')`,
and the `NotImplementedError` of the `catalog` setter. -/
inductive FamErr where
  | templateMismatch
  | unsupportedCombination
  | unsupportedOperation
deriving DecidableEq

/-- The `catalog` property getter: if the cached length diverges from the
detection count, recompute the cache from the detections, then return it. -/
def catalogRead (h : Heap) (r : Nat) : Heap × List (Option (List Char)) :=
  let f := h.get r
  if f.catalogCache.length ≠ f.detections.length then
    let c := get_catalog f.detections
    (h.set r { f with catalogCache := c }, c)
  else (h, f.catalogCache)

/-- The `catalog` property setter: unconditionally raises, mutating
nothing. -/
def catalogSet (h : Heap) (_r : Nat) (_c : List (Option (List Char))) :
    Heap × Except FamErr Unit :=
  (h, .error .unsupportedOperation)

/-- The operand of `__add__`/`__iadd__`/`append`: another `Family`, a
single `Detection`, or anything else (the source's final `else`). -/
inductive AddOperand where
  | fam (r : Nat)
  | det (d : Detection)
  | other

/-- `Family.__iadd__`: on a `Family` operand with an equal template,
extend `self.detections` and `self.__catalog` in place; on a `Detection`
operand with a matching template name, append it; otherwise raise before
mutating anything. -/
def famIAdd (h : Heap) (selfR : Nat) (x : AddOperand) :
    Heap × Except FamErr Unit :=
  match x with
  | .fam oR =>
    let s := h.get selfR
    let o := h.get oR
    if o.templateName = s.templateName then
      (h.set selfR { s with
        detections := s.detections ++ o.detections,
        catalogCache := s.catalogCache ++ get_catalog o.detections }, .ok ())
    else (h, .error .templateMismatch)
  | .det d =>
    let s := h.get selfR
    if d.template_name = s.templateName then
      (h.set selfR { s with
        detections := s.detections ++ [d],
        catalogCache := s.catalogCache ++ get_catalog [d] }, .ok ())
    else (h, .error .templateMismatch)
  | .other => (h, .error .unsupportedCombination)

/-- `Family.copy`: `copy.deepcopy(self)` — allocate an independent object
with the same state (detections are immutable values, so the deep copy of
the list is the value itself). -/
def famCopy (h : Heap) (r : Nat) : Heap × Nat := h.alloc (h.get r)

/-- `Family.__add__`: `self.copy().__iadd__(other)`.  The copy is
allocated first; if `__iadd__` then raises, the exception propagates with
the heap as mutated so far (the operands themselves untouched). -/
def famAdd (h : Heap) (selfR : Nat) (x : AddOperand) :
    Heap × Except FamErr Nat :=
  let hr := famCopy h selfR
  let he := famIAdd hr.1 hr.2 x
  (he.1, he.2.map (fun _ => hr.2))

/-- `Family.append`: delegates to `__add__`. -/
def famAppend (h : Heap) (selfR : Nat) (x : AddOperand) :
    Heap × Except FamErr Nat :=
  famAdd h selfR x

/-- Insert a detection after every detection with a strictly earlier
trigger time and before every detection with an equal or later one: the
insertion point of a stable sort, where the inserted detection precedes the
already-placed detections of equal key (those come from later positions of
the original list). -/
def insertByTime (d : Detection) : List Detection → List Detection
  | [] => [d]
  | x :: xs =>
    if x.detect_time < d.detect_time then x :: insertByTime d xs
    else d :: x :: xs

/-- Modelled from the spec: Python's builtin stable
`sorted(detections, key=lambda d: d.detect_time)` as a stable insertion
sort ascending by trigger time — each detection is inserted into the sorted
remainder (whose elements all come from later original positions) before
any detection of equal trigger time, so the original order of equal-time
detections is preserved. -/
def sortByTime : List Detection → List Detection
  | [] => []
  | d :: rest => insertByTime d (sortByTime rest)

/-- `Family.sort`: replace `self.detections` with the stably time-sorted
list, in place. -/
def famSort (h : Heap) (r : Nat) : Heap :=
  let f := h.get r
  h.set r { f with detections := sortByTime f.detections }

/-- The kept-so-far accumulator loop of `Family._uniq`: append each
detection whose value-equal (`detEq`) copy is not already kept
(`not _detections.count(d)`). -/
def uniqAux (kept : List Detection) : List Detection → List Detection
  | [] => kept
  | d :: rest =>
    if kept.any (fun x => detEq x d) then uniqAux kept rest
    else uniqAux (kept ++ [d]) rest

/-- The de-duplicated detection list, first occurrences kept in order. -/
def uniqList (l : List Detection) : List Detection := uniqAux [] l

/-- `Family._uniq`: replace `self.detections` with the de-duplicated list,
in place (the catalog cache is not touched). -/
def famUniq (f : FamilyObj) : FamilyObj :=
  { f with detections := uniqList f.detections }

/-- The zipped detection comparison loop of `Family.__eq__`. -/
def zipDetEq (la lb : List Detection) : Bool :=
  (la.zip lb).all (fun p => detEq p.1 p.2)

/-- The final catalog-length comparison of `Family.__eq__`: two `catalog`
property reads (each may refresh its cache in place), then the length
test. -/
def famEqCat (h : Heap) (a b : Nat) : Heap × Bool :=
  let ra := catalogRead h a
  let rb := catalogRead ra.1 b
  (rb.1, ra.2.length = rb.2.length)

/-- `Family.__eq__`: template equality (identity equality, see above),
then detection-count equality, then — when both are non-empty — an
element-wise comparison of `self.sort().detections` against
`other.sort().detections`, both sorts mutating in place before the zip is
consumed; finally the catalog-length comparison.  An early `False` from the
zip loop skips the catalog reads but leaves both operands sorted. -/
def famEq (h : Heap) (a b : Nat) : Heap × Bool :=
  let fa := h.get a
  let fb := h.get b
  if fa.templateName ≠ fb.templateName then (h, false)
  else if fa.detections.length ≠ fb.detections.length then (h, false)
  else if fa.detections.length ≠ 0 ∧ fb.detections.length ≠ 0 then
    let h1 := famSort h a
    let h2 := famSort h1 b
    if zipDetEq (h2.get a).detections (h2.get b).detections then
      famEqCat h2 a b
    else (h2, false)
  else famEqCat h a b

/-- `Family.__len__`: `len(self.detections)`. -/
def famLen (h : Heap) (r : Nat) : Nat := (h.get r).detections.length

/-- Operand validity for `append`/`__add__` (the condition under which the
source does not raise): a `Family` operand must be live and share the
template identity, a `Detection` operand must carry the family's template
name, and any other operand is invalid. -/
def validOperand (h : Heap) (r : Nat) : AddOperand → Prop
  | .fam oR => oR < h.objs.length ∧ (h.get oR).templateName = (h.get r).templateName
  | .det d => d.template_name = (h.get r).templateName
  | .other => False

instance (h : Heap) (r : Nat) (x : AddOperand) : Decidable (validOperand h r x) := by
  unfold validOperand
  match x with
  | .fam oR => exact inferInstance
  | .det d => exact inferInstance
  | .other => exact inferInstance

/-- The detections the operand contributes on success. -/
def operandDets (h : Heap) : AddOperand → List Detection
  | .fam oR => (h.get oR).detections
  | .det d => [d]
  | .other => []

/-! ## Well-formedness of serialized field values

The `;`/`': '` framing of `_write_family` is not escaped: a string field
containing the separator characters (or edge whitespace, which `strip()`
would eat) cannot survive the round trip.  These predicates capture the
values the codec can frame. -/

/-- A string field value safe for the line framing: free of `';'`, `':'`
and whitespace. -/
def safeChars (s : List Char) : Bool :=
  s.all (fun c => !(decide (c = ';')) && !(decide (c = ':')) && !(pyWs c))

/-- A channel identifier safe for the `repr`/`literal_eval` round trip:
additionally free of `','` and the quote character. -/
def safeElem (s : List Char) : Bool :=
  safeChars s && s.all (fun c => !(decide (c = ',')) && !(decide (c = quoteChar)))

/-- The hypotheses of the amended round-trip claim: string fields are
framing-safe, channel identifiers are `repr`-safe, each of the three
binary64 statistics is a double that is zero or of magnitude at least
`2 ^ (-53)` (so `format(x, '.32f')` stays within half an ulp and `float`
recovers the double exactly), and the channel count is a binary64 integer
(below `2 ^ 53`, as any channel count is). -/
def SafeDet (d : Detection) : Prop :=
  safeChars d.template_name = true ∧ safeChars d.typeofdet = true ∧
  safeChars d.threshold_type = true ∧ safeChars d.id = true ∧
  safeChars (d.event.getD []) = true ∧
  (d.chans.getD []).all safeElem = true ∧
  b64Safe d.detect_val ∧ b64Safe d.threshold ∧ b64Safe d.threshold_input ∧
  b64Rep (d.no_chans : ℚ)

instance (d : Detection) : Decidable (SafeDet d) := by
  unfold SafeDet
  exact inferInstance

/-- The detection `_read_family` reconstructs from detection `d` when the
companion event collection is empty: every field of `d` with the derived
event regenerated by the hook. -/
def regenDet (templateName : List Char) (d : Detection) : Detection :=
  { d with event := some (templateName ++ '_' :: natDigits d.detect_time) }

/-! ## Proof scaffolding for the line codec

`encodeLine` is a flattened list of `key: value; ` fragments; the
definitions below name the intermediate shapes of that string (the
key/value pair list of a detection, the line with its trailing space
stripped) and the fold of the decoder's per-pair dispatch over pairs that
are already split — each is proved equal to the corresponding stage of
`encodeLine`/`parseLine` rather than assumed. -/

/-- The key/value pairs `_write_family` renders for one detection. -/
def kvList (d : Detection) : List (List Char × List Char) :=
  detKeys.map (fun k => (k, fieldStr d k))

/-- A key/value list rendered as a line (equal to `encodeLine` on
`kvList d`). -/
def encKVs (kvs : List (List Char × List Char)) : List Char :=
  (kvs.map (fun kv => encPiece kv.1 kv.2)).flatten

/-- The rendered line minus its final `"; "` (what `rstrip()` leaves after
the last fragment's trailing space is removed, without the final `';'`). -/
def encBody : List (List Char × List Char) → List Char
  | [] => []
  | [kv] => kv.1 ++ ':' :: ' ' :: kv.2
  | kv :: rest => kv.1 ++ ':' :: ' ' :: kv.2 ++ ';' :: ' ' :: encBody rest

/-- The decoder's per-pair dispatch folded over already-extracted
key/value pairs. -/
def kvsFold (cat : List (List Char)) (st : PState) :
    List (List Char × List Char) → Except DecErr PState
  | [] => .ok st
  | kv :: rest =>
    match parsePairKV cat st kv.1 kv.2 with
    | .ok st2 => kvsFold cat st2 rest
    | .error e => .error e

/-- Framing safety of one key/value pair: the key is free of separators
and whitespace, the value is free of separators and `strip`-stable. -/
def SafeKV (kv : List Char × List Char) : Prop :=
  (∀ c ∈ kv.1, ¬ c = ';' ∧ ¬ c = ':' ∧ pyWs c = false) ∧
  (∀ c ∈ kv.2, ¬ c = ';' ∧ ¬ c = ':') ∧ stripWs kv.2 = kv.2

/-! ## Heap lemmas -/

theorem Heap.length_set (h : Heap) (r : Nat) (f : FamilyObj) :
    (h.set r f).objs.length = h.objs.length := by
  simp [Heap.set]

theorem Heap.get_set_self (h : Heap) (r : Nat) (f : FamilyObj)
    (hr : r < h.objs.length) : (h.set r f).get r = f := by
  simp [Heap.set, Heap.get, List.getD_eq_getElem?_getD, List.getElem?_set_self hr]

theorem Heap.get_set_ne (h : Heap) (r r' : Nat) (f : FamilyObj)
    (hne : r ≠ r') : (h.set r f).get r' = h.get r' := by
  simp [Heap.set, Heap.get, List.getD_eq_getElem?_getD, List.getElem?_set_ne hne]

theorem Heap.get_alloc_new (h : Heap) (f : FamilyObj) :
    (h.alloc f).1.get h.objs.length = f := by
  simp [Heap.alloc, Heap.get, List.getD_eq_getElem?_getD]

theorem Heap.get_alloc_old (h : Heap) (f : FamilyObj) (r : Nat)
    (hr : r < h.objs.length) : (h.alloc f).1.get r = h.get r := by
  simp [Heap.alloc, Heap.get, List.getD_eq_getElem?_getD,
    List.getElem?_append_left hr]

theorem Heap.get_default (h : Heap) (r : Nat) (hr : h.objs.length ≤ r) :
    h.get r = default := by
  simp [Heap.get, List.getD_eq_getElem?_getD, List.getElem?_eq_none hr]

/-- A live reference: an object with a non-empty detection list is in
range (an out-of-range read yields the default object, whose lists are
empty). -/
theorem Heap.lt_length_of_detections_ne_nil (h : Heap) (r : Nat)
    (hne : (h.get r).detections ≠ []) : r < h.objs.length := by
  by_contra hcon
  exact hne (by rw [Heap.get_default h r (by omega)]; rfl)

/-- `catalogRead` never changes any object's detection list (it only
refreshes a catalog cache). -/
theorem catalogRead_detections (h : Heap) (r r' : Nat) :
    ((catalogRead h r).1.get r').detections = (h.get r').detections := by
  unfold catalogRead
  by_cases hc : (h.get r).catalogCache.length ≠ (h.get r).detections.length
  · rw [if_pos hc]
    by_cases hrr : r = r'
    · subst hrr
      have hlt : r < h.objs.length := by
        by_contra hcon
        rw [Heap.get_default h r (by omega)] at hc
        exact hc rfl
      rw [Heap.get_set_self h r _ hlt]
    · rw [Heap.get_set_ne h r r' _ hrr]
  · rw [if_neg hc]

theorem Heap.length_alloc (h : Heap) (f : FamilyObj) :
    (h.alloc f).1.objs.length = h.objs.length + 1 := by
  simp [Heap.alloc]

theorem famIAdd_fam_ok (h : Heap) (s oR : Nat)
    (heq : (h.get oR).templateName = (h.get s).templateName) :
    famIAdd h s (.fam oR) =
      (h.set s { h.get s with
        detections := (h.get s).detections ++ (h.get oR).detections,
        catalogCache :=
          (h.get s).catalogCache ++ get_catalog (h.get oR).detections },
       .ok ()) := by
  simp [famIAdd, heq]

theorem famIAdd_fam_err (h : Heap) (s oR : Nat)
    (hne : (h.get oR).templateName ≠ (h.get s).templateName) :
    famIAdd h s (.fam oR) = (h, .error .templateMismatch) := by
  simp [famIAdd, hne]

theorem famIAdd_det_ok (h : Heap) (s : Nat) (d : Detection)
    (heq : d.template_name = (h.get s).templateName) :
    famIAdd h s (.det d) =
      (h.set s { h.get s with
        detections := (h.get s).detections ++ [d],
        catalogCache := (h.get s).catalogCache ++ get_catalog [d] },
       .ok ()) := by
  simp [famIAdd, heq]

/-- `famAdd` is `famIAdd` on the freshly allocated deep copy. -/
theorem famAdd_eq (h : Heap) (r : Nat) (x : AddOperand) :
    famAdd h r x =
      ((famIAdd (h.alloc (h.get r)).1 h.objs.length x).1,
       (famIAdd (h.alloc (h.get r)).1 h.objs.length x).2.map
         (fun _ => h.objs.length)) := rfl

/-- **C2.** Combining two Families (`Combine` = the non-in-place
`Family.__add__`) succeeds exactly when the two share the same template
identity: on a shared identity the result is the concatenated Family, and
on differing identity it fails with `TemplateMismatch`
(`NotImplementedError('Templates do not match')`) leaving the detection
lists — indeed the whole states — of both operand Families unchanged. -/
theorem combine_template_identity (h : Heap) (a b : Nat)
    (ha : a < h.objs.length) (hb : b < h.objs.length) :
    ((h.get b).templateName = (h.get a).templateName →
      (famAdd h a (.fam b)).2 = .ok h.objs.length ∧
      ((famAdd h a (.fam b)).1.get h.objs.length).detections =
        (h.get a).detections ++ (h.get b).detections) ∧
    ((h.get b).templateName ≠ (h.get a).templateName →
      (famAdd h a (.fam b)).2 = .error .templateMismatch ∧
      (famAdd h a (.fam b)).1.get a = h.get a ∧
      (famAdd h a (.fam b)).1.get b = h.get b) := by
  have hnew := Heap.get_alloc_new h (h.get a)
  have hob := Heap.get_alloc_old h (h.get a) b hb
  have hoa := Heap.get_alloc_old h (h.get a) a ha
  constructor
  · intro heq
    have hi := famIAdd_fam_ok (h.alloc (h.get a)).1 h.objs.length b
      (by rw [hob, hnew]; exact heq)
    rw [famAdd_eq, hi]
    refine ⟨rfl, ?_⟩
    rw [Heap.get_set_self _ _ _ (by rw [Heap.length_alloc]; omega), hnew, hob]
  · intro hne
    have hi := famIAdd_fam_err (h.alloc (h.get a)).1 h.objs.length b
      (by rw [hob, hnew]; exact hne)
    rw [famAdd_eq, hi]
    exact ⟨rfl, hoa, hob⟩

/-- Witness for C2: a concrete two-family heap exercising both the shared-
and differing-identity branches of `combine_template_identity`. -/
theorem combine_template_identity_witness :
    (let h : Heap := ⟨[⟨"a".data, [], []⟩, ⟨"a".data, [], []⟩]⟩
     (famAdd h 0 (.fam 1)).2 = .ok 2) ∧
    (let h : Heap := ⟨[⟨"a".data, [], []⟩, ⟨"b".data, [], []⟩]⟩
     (famAdd h 0 (.fam 1)).2 = .error .templateMismatch ∧
     (famAdd h 0 (.fam 1)).1.get 0 = h.get 0 ∧
     (famAdd h 0 (.fam 1)).1.get 1 = h.get 1) := by
  constructor
  · exact ((combine_template_identity ⟨[⟨"a".data, [], []⟩, ⟨"a".data, [], []⟩]⟩
      0 1 (by decide) (by decide)).1 (by decide)).1
  · exact (combine_template_identity ⟨[⟨"a".data, [], []⟩, ⟨"b".data, [], []⟩]⟩
      0 1 (by decide) (by decide)).2 (by decide)

/-- **C3.** For Families with equal template identity, the non-in-place
combination has length `len(A) + len(B)`, and — copy-then-append
semantics — the result lives at a fresh reference distinct from both
operands, so overwriting either operand's state afterwards leaves the
result unchanged. -/
theorem combine_length_and_independence (h : Heap) (a b : Nat)
    (ha : a < h.objs.length) (hb : b < h.objs.length)
    (heq : (h.get b).templateName = (h.get a).templateName) :
    (famAdd h a (.fam b)).2 = .ok h.objs.length ∧
    famLen (famAdd h a (.fam b)).1 h.objs.length = famLen h a + famLen h b ∧
    h.objs.length ≠ a ∧ h.objs.length ≠ b ∧
    ∀ g : FamilyObj,
      ((famAdd h a (.fam b)).1.set a g).get h.objs.length =
        (famAdd h a (.fam b)).1.get h.objs.length ∧
      ((famAdd h a (.fam b)).1.set b g).get h.objs.length =
        (famAdd h a (.fam b)).1.get h.objs.length := by
  have hres := (combine_template_identity h a b ha hb).1 heq
  refine ⟨hres.1, ?_, by omega, by omega, ?_⟩
  · unfold famLen
    rw [hres.2, List.length_append]
  · intro g
    constructor
    · exact Heap.get_set_ne _ a h.objs.length g (by omega)
    · exact Heap.get_set_ne _ b h.objs.length g (by omega)

/-- Witness for C3 at a concrete heap with one detection on each side. -/
theorem combine_length_and_independence_witness :
    (let d : Detection := ⟨"a".data, 0, 1, 1, 1, "corr".data, "MAD".data, 1,
       none, none, "i".data⟩
     let h : Heap := ⟨[⟨"a".data, [d], []⟩, ⟨"a".data, [d], []⟩]⟩
     (famAdd h 0 (.fam 1)).2 = .ok 2 ∧
     famLen (famAdd h 0 (.fam 1)).1 2 = famLen h 0 + famLen h 1) := by
  have := combine_length_and_independence
    ⟨[⟨"a".data, [⟨"a".data, 0, 1, 1, 1, "corr".data, "MAD".data, 1,
       none, none, "i".data⟩], []⟩,
      ⟨"a".data, [⟨"a".data, 0, 1, 1, 1, "corr".data, "MAD".data, 1,
       none, none, "i".data⟩], []⟩]⟩
    0 1 (by decide) (by decide) (by decide)
  exact ⟨this.1, this.2.1⟩

/-- **C10.** `Family.append` does not mutate the Family it is called on:
for every valid operand (a Family or Detection with matching template
identity) it returns a fresh Family holding the combination, and the
original family's state — in particular its detection list and length —
is unchanged. -/
theorem append_leaves_family_unchanged (h : Heap) (r : Nat) (x : AddOperand)
    (hr : r < h.objs.length) (hx : validOperand h r x) :
    (famAppend h r x).1.get r = h.get r ∧
    (famAppend h r x).2 = .ok h.objs.length ∧
    h.objs.length ≠ r ∧
    ((famAppend h r x).1.get h.objs.length).detections =
      (h.get r).detections ++ operandDets h x := by
  have hnew := Heap.get_alloc_new h (h.get r)
  have hor := Heap.get_alloc_old h (h.get r) r hr
  match x with
  | .fam oR =>
    obtain ⟨ho, heq⟩ := hx
    have hob := Heap.get_alloc_old h (h.get r) oR ho
    have hi := famIAdd_fam_ok (h.alloc (h.get r)).1 h.objs.length oR
      (by rw [hob, hnew]; exact heq)
    unfold famAppend
    rw [famAdd_eq, hi]
    refine ⟨?_, rfl, by omega, ?_⟩
    · rw [Heap.get_set_ne _ _ _ _ (by omega)]; exact hor
    · rw [Heap.get_set_self _ _ _ (by rw [Heap.length_alloc]; omega), hnew, hob]
      rfl
  | .det d =>
    have hi := famIAdd_det_ok (h.alloc (h.get r)).1 h.objs.length d
      (by rw [hnew]; exact hx)
    unfold famAppend
    rw [famAdd_eq, hi]
    refine ⟨?_, rfl, by omega, ?_⟩
    · rw [Heap.get_set_ne _ _ _ _ (by omega)]; exact hor
    · rw [Heap.get_set_self _ _ _ (by rw [Heap.length_alloc]; omega), hnew]
      rfl
  | .other => exact absurd hx (by simp [validOperand])

/-- Witness for C10: appending a matching detection to a concrete
one-detection family. -/
theorem append_leaves_family_unchanged_witness :
    (let d : Detection := ⟨"a".data, 0, 1, 1, 1, "corr".data, "MAD".data, 1,
       none, none, "i".data⟩
     let h : Heap := ⟨[⟨"a".data, [d], []⟩]⟩
     (famAppend h 0 (.det d)).1.get 0 = h.get 0 ∧
     (famAppend h 0 (.det d)).2 = .ok 1 ∧
     ((famAppend h 0 (.det d)).1.get 1).detections =
       (h.get 0).detections ++ [d]) := by
  have := append_leaves_family_unchanged
    ⟨[⟨"a".data, [⟨"a".data, 0, 1, 1, 1, "corr".data, "MAD".data, 1,
       none, none, "i".data⟩], []⟩]⟩
    0 (.det ⟨"a".data, 0, 1, 1, 1, "corr".data, "MAD".data, 1,
       none, none, "i".data⟩)
    (by decide) (by decide)
  exact ⟨this.1, this.2.1, this.2.2.2⟩

/-- **C4.** After any read of the derived event summary (the `catalog`
property), its length equals the length of the Family's detection list:
both the returned catalog and the cache stored back on the object satisfy
the invariant, whatever heap state — i.e. whatever sequence of appends and
merges — preceded the read. -/
theorem catalog_read_length_invariant (h : Heap) (r : Nat) :
    ((catalogRead h r).2).length = ((h.get r).detections).length ∧
    (((catalogRead h r).1).get r).catalogCache.length =
      (((catalogRead h r).1).get r).detections.length := by
  unfold catalogRead
  by_cases hc : (h.get r).catalogCache.length ≠ (h.get r).detections.length
  · rw [if_pos hc]
    have hlt : r < h.objs.length := by
      by_contra hcon
      rw [Heap.get_default h r (by omega)] at hc
      exact hc rfl
    rw [Heap.get_set_self h r _ hlt]
    exact ⟨by simp [get_catalog], by simp [get_catalog]⟩
  · rw [if_neg hc]
    push_neg at hc
    exact ⟨hc, hc⟩

/-- **C6.** Every attempt to set a Family's derived event summary directly
(the `catalog` property setter) fails with `UnsupportedOperation`
(`NotImplementedError`), for every Family and every assigned value, and
mutates nothing: the summary is only ever derived from the detections. -/
theorem catalog_setter_always_fails (h : Heap) (r : Nat)
    (c : List (Option (List Char))) :
    (catalogSet h r c).2 = .error .unsupportedOperation ∧
    (catalogSet h r c).1 = h := ⟨rfl, rfl⟩

/-- **C9.** Constructing a Family with an explicit `catalog` argument never
raises, whatever that argument is: the constructed state is identical to
the one built with no catalog argument (the supplied value is ignored, at
most a warning flag is produced), and the summary is derived from the
effective detections; by contrast, post-construction assignment to the
summary raises. -/
theorem init_ignores_catalog_argument (templateName : List Char)
    (da : DetArg) (c : Option (List (Option (List Char)))) :
    (famInit templateName da c).1 = (famInit templateName da none).1 ∧
    (famInit templateName da c).1.detections = normalizeDets da ∧
    (famInit templateName da c).1.catalogCache =
      get_catalog (normalizeDets da) ∧
    ∀ (h : Heap) (r : Nat) (v : List (Option (List Char))),
      (catalogSet h r v).2 = .error .unsupportedOperation :=
  ⟨rfl, rfl, rfl, fun _ _ _ => rfl⟩

/-- `famSort` rewrites the sorted object's detections and nothing else. -/
theorem famSort_get_self (h : Heap) (r : Nat) (hr : r < h.objs.length) :
    (famSort h r).get r =
      { h.get r with detections := sortByTime (h.get r).detections } :=
  Heap.get_set_self h r _ hr

theorem famSort_get_ne (h : Heap) (r r' : Nat) (hne : r ≠ r') :
    (famSort h r).get r' = h.get r' :=
  Heap.get_set_ne h r r' _ hne

theorem famSort_length (h : Heap) (r : Nat) :
    (famSort h r).objs.length = h.objs.length :=
  Heap.length_set h r _

/-- `famEqCat` (two catalog reads) changes no detection list. -/
theorem famEqCat_detections (h : Heap) (a b r' : Nat) :
    ((famEqCat h a b).1.get r').detections = (h.get r').detections := by
  unfold famEqCat
  rw [catalogRead_detections, catalogRead_detections]

/-- **C8.** Evaluating `Family.__eq__` is not side-effect-free: for any two
distinct Families with equal template identity and equal non-zero detection
counts, the comparison re-sorts both operands' detection lists in place,
ascending by trigger time and stably (detections with equal trigger times
keep their original relative order, as Python's builtin `sorted` does) —
whatever Boolean it returns, the post-state of both operands holds the
sorted lists. -/
theorem eq_sorts_operands_in_place (h : Heap) (a b : Nat) (hab : a ≠ b)
    (ht : (h.get a).templateName = (h.get b).templateName)
    (hlen : (h.get a).detections.length = (h.get b).detections.length)
    (hne : (h.get a).detections ≠ []) :
    ((famEq h a b).1.get a).detections = sortByTime ((h.get a).detections) ∧
    ((famEq h a b).1.get b).detections = sortByTime ((h.get b).detections) := by
  have hbne : (h.get b).detections ≠ [] := by
    intro hnil
    rw [hnil] at hlen
    exact hne (List.length_eq_zero.mp hlen)
  have halt : a < h.objs.length := Heap.lt_length_of_detections_ne_nil h a hne
  have hblt : b < h.objs.length := Heap.lt_length_of_detections_ne_nil h b hbne
  have hga : ((famSort h a).get a).detections = sortByTime ((h.get a).detections) := by
    rw [famSort_get_self h a halt]
  have hga2 : ((famSort (famSort h a) b).get a).detections =
      sortByTime ((h.get a).detections) := by
    rw [famSort_get_ne _ b a (Ne.symm hab)]
    exact hga
  have hgb2 : ((famSort (famSort h a) b).get b).detections =
      sortByTime ((h.get b).detections) := by
    rw [famSort_get_self _ b (by rw [famSort_length]; exact hblt),
      famSort_get_ne h a b hab]
  unfold famEq
  rw [if_neg (by rw [ht]; exact fun hcon => hcon rfl),
    if_neg (fun hcon => hcon hlen),
    if_pos ⟨fun hcon => hne (List.length_eq_zero.mp hcon),
            fun hcon => hbne (List.length_eq_zero.mp hcon)⟩]
  by_cases hz : zipDetEq ((famSort (famSort h a) b).get a).detections
      ((famSort (famSort h a) b).get b).detections = true
  · rw [if_pos hz]
    rw [famEqCat_detections, famEqCat_detections]
    exact ⟨hga2, hgb2⟩
  · rw [if_neg hz]
    exact ⟨hga2, hgb2⟩

/-- Witness for C8: comparing two concrete out-of-order three-detection
families (containing a pair with equal trigger times) leaves both sorted
ascending by trigger time, the equal-time detections keeping their original
relative order (the sort is stable, so the two operands end up with
different equal-time orders). -/
theorem eq_sorts_operands_in_place_witness :
    (let d1 : Detection := ⟨"a".data, 9, 1, 1, 1, "corr".data, "MAD".data, 1,
       none, none, "i1".data⟩
     let d2 : Detection := ⟨"a".data, 3, 1, 2, 1, "corr".data, "MAD".data, 1,
       none, none, "i2".data⟩
     let d3 : Detection := ⟨"a".data, 3, 1, 4, 1, "corr".data, "MAD".data, 1,
       none, none, "i3".data⟩
     let h : Heap := ⟨[⟨"a".data, [d1, d2, d3], []⟩,
                       ⟨"a".data, [d3, d2, d1], []⟩]⟩
     ((famEq h 0 1).1.get 0).detections = [d2, d3, d1] ∧
     ((famEq h 0 1).1.get 1).detections = [d3, d2, d1]) := by
  have := eq_sorts_operands_in_place
    ⟨[⟨"a".data, [⟨"a".data, 9, 1, 1, 1, "corr".data, "MAD".data, 1,
        none, none, "i1".data⟩,
       ⟨"a".data, 3, 1, 2, 1, "corr".data, "MAD".data, 1,
        none, none, "i2".data⟩,
       ⟨"a".data, 3, 1, 4, 1, "corr".data, "MAD".data, 1,
        none, none, "i3".data⟩], []⟩,
      ⟨"a".data, [⟨"a".data, 3, 1, 4, 1, "corr".data, "MAD".data, 1,
        none, none, "i3".data⟩,
       ⟨"a".data, 3, 1, 2, 1, "corr".data, "MAD".data, 1,
        none, none, "i2".data⟩,
       ⟨"a".data, 9, 1, 1, 1, "corr".data, "MAD".data, 1,
        none, none, "i1".data⟩], []⟩]⟩
    0 1 (by decide) (by decide) (by decide) (by decide)
  exact ⟨by rw [this.1]; decide, by rw [this.2]; decide⟩

/-! ## De-duplication (`Family._uniq`) -/

theorem detEq_refl (x : Detection) : detEq x x = true := by
  simp [detEq]

theorem detEq_symm (x y : Detection) : detEq x y = detEq y x := by
  unfold detEq
  rw [decide_eq_decide]
  constructor <;>
    · rintro ⟨h1, h2, h3, h4, h5, h6, h7, h8, h9, h10⟩
      exact ⟨h1.symm, h2.symm, h3.symm, h4.symm, h5.symm, h6.symm, h7.symm,
        h8.symm, h9.symm, h10.symm⟩

theorem uniqAux_eq_append (l : List Detection) :
    ∀ kept, ∃ s, uniqAux kept l = kept ++ s ∧ s.Sublist l := by
  induction l with
  | nil => exact fun kept => ⟨[], by simp [uniqAux], List.nil_sublist []⟩
  | cons d rest ih =>
    intro kept
    by_cases hany : kept.any (fun x => detEq x d) = true
    · obtain ⟨s, hs, hsub⟩ := ih kept
      exact ⟨s, by rw [uniqAux, if_pos hany]; exact hs, hsub.cons d⟩
    · obtain ⟨s, hs, hsub⟩ := ih (kept ++ [d])
      refine ⟨d :: s, ?_, hsub.cons₂ d⟩
      rw [uniqAux, if_neg hany, hs, List.append_assoc]
      rfl

theorem mem_uniqAux_of_mem_kept (l : List Detection) (kept : List Detection)
    (x : Detection) (hx : x ∈ kept) : x ∈ uniqAux kept l := by
  obtain ⟨s, hs, _⟩ := uniqAux_eq_append l kept
  rw [hs]
  exact List.mem_append_left s hx

theorem uniqAux_pairwise (l : List Detection) :
    ∀ kept, List.Pairwise (fun x y => detEq x y = false) kept →
      List.Pairwise (fun x y => detEq x y = false) (uniqAux kept l) := by
  induction l with
  | nil => intro kept hk; simpa [uniqAux] using hk
  | cons d rest ih =>
    intro kept hk
    by_cases hany : kept.any (fun x => detEq x d) = true
    · rw [uniqAux, if_pos hany]
      exact ih kept hk
    · rw [uniqAux, if_neg hany]
      refine ih (kept ++ [d]) (List.pairwise_append.mpr ⟨hk, ?_, ?_⟩)
      · simp
      · intro x hx y hy
        rw [List.mem_singleton] at hy
        subst hy
        exact Bool.eq_false_iff.mpr
          (fun hc => hany (List.any_eq_true.mpr ⟨x, hx, hc⟩))

theorem uniqAux_covers (l : List Detection) :
    ∀ kept, ∀ d ∈ l, ∃ k ∈ uniqAux kept l, detEq d k = true := by
  induction l with
  | nil => intro kept d hd; exact absurd hd (List.not_mem_nil d)
  | cons e rest ih =>
    intro kept d hd
    by_cases hany : kept.any (fun x => detEq x e) = true
    · rw [uniqAux, if_pos hany]
      rcases List.mem_cons.mp hd with heq | hdr
      · subst heq
        obtain ⟨x, hxk, hxe⟩ := List.any_eq_true.mp hany
        exact ⟨x, mem_uniqAux_of_mem_kept rest kept x hxk,
          (detEq_symm d x).symm ▸ hxe⟩
      · exact ih kept d hdr
    · rw [uniqAux, if_neg hany]
      rcases List.mem_cons.mp hd with heq | hdr
      · subst heq
        exact ⟨d, mem_uniqAux_of_mem_kept rest (kept ++ [d]) d
          (List.mem_append_right kept (List.mem_singleton.mpr rfl)),
          detEq_refl d⟩
      · exact ih (kept ++ [e]) d hdr

theorem uniqAux_of_pairwise (m : List Detection) :
    ∀ kept, List.Pairwise (fun x y => detEq x y = false) (kept ++ m) →
      uniqAux kept m = kept ++ m := by
  induction m with
  | nil => intro kept _; simp [uniqAux]
  | cons d rest ih =>
    intro kept hp
    have hkd : ∀ x ∈ kept, detEq x d = false := by
      intro x hx
      exact (List.pairwise_append.mp hp).2.2 x hx d (List.mem_cons_self d rest)
    have hany : ¬ kept.any (fun x => detEq x d) = true := by
      intro hc
      obtain ⟨x, hxk, hxe⟩ := List.any_eq_true.mp hc
      rw [hkd x hxk] at hxe
      exact Bool.false_ne_true hxe
    rw [uniqAux, if_neg hany, ih (kept ++ [d]) (by rwa [List.append_assoc]),
      List.append_assoc]
    rfl

theorem uniqList_pairwise (l : List Detection) :
    List.Pairwise (fun x y => detEq x y = false) (uniqList l) :=
  uniqAux_pairwise l [] List.Pairwise.nil

theorem uniqList_idem (l : List Detection) : uniqList (uniqList l) = uniqList l := by
  have := uniqAux_of_pairwise (uniqList l) [] (by simpa using uniqList_pairwise l)
  simpa [uniqList] using this

/-- **C7.** `Deduplicate` (`Family._uniq`) keeps the first-seen
representative of every value-equivalence class: the resulting detection
list is a sublist of the original (order preserved, elements only
removed), no kept detection is value-equal to another kept one, every
original detection is value-equal to some kept one, and the operation is
idempotent: `Deduplicate(Deduplicate(F)) = Deduplicate(F)`. -/
theorem dedup_first_seen_idempotent (f : FamilyObj) :
    famUniq (famUniq f) = famUniq f ∧
    ((famUniq f).detections).Sublist f.detections ∧
    List.Pairwise (fun x y => detEq x y = false) ((famUniq f).detections) ∧
    ∀ d ∈ f.detections, ∃ k ∈ (famUniq f).detections, detEq d k = true := by
  refine ⟨?_, ?_, ?_, ?_⟩
  · simp [famUniq, uniqList_idem]
  · obtain ⟨s, hs, hsub⟩ := uniqAux_eq_append f.detections []
    simpa [famUniq, uniqList, hs] using hsub
  · exact uniqList_pairwise f.detections
  · exact fun d hd => uniqAux_covers f.detections [] d hd

/-- Witness for C7: the spec §8 scenario — a three-detection family with
one exact duplicate deduplicates to the two first-seen detections, and
doing it twice changes nothing. -/
theorem dedup_first_seen_idempotent_witness :
    (let d1 : Detection := ⟨"a".data, 0, 8, 21/5, 6/5, "corr".data,
       "MAD".data, 8, none, none, "i1".data⟩
     let d2 : Detection := ⟨"a".data, 10, 8, 9/2, 6/5, "corr".data,
       "MAD".data, 8, none, none, "i2".data⟩
     let f : FamilyObj := ⟨"a".data, [d1, d2, d2], []⟩
     famUniq (famUniq f) = famUniq f ∧
     ∃ k ∈ (famUniq f).detections, detEq d2 k = true) := by
  refine ⟨(dedup_first_seen_idempotent
    ⟨"a".data, [⟨"a".data, 0, 8, 21/5, 6/5, "corr".data,
       "MAD".data, 8, none, none, "i1".data⟩,
      ⟨"a".data, 10, 8, 9/2, 6/5, "corr".data,
       "MAD".data, 8, none, none, "i2".data⟩,
      ⟨"a".data, 10, 8, 9/2, 6/5, "corr".data,
       "MAD".data, 8, none, none, "i2".data⟩], []⟩).1, ?_⟩
  exact (dedup_first_seen_idempotent
    ⟨"a".data, [⟨"a".data, 0, 8, 21/5, 6/5, "corr".data,
       "MAD".data, 8, none, none, "i1".data⟩,
      ⟨"a".data, 10, 8, 9/2, 6/5, "corr".data,
       "MAD".data, 8, none, none, "i2".data⟩,
      ⟨"a".data, 10, 8, 9/2, 6/5, "corr".data,
       "MAD".data, 8, none, none, "i2".data⟩], []⟩).2.2.2
    ⟨"a".data, 10, 8, 9/2, 6/5, "corr".data,
       "MAD".data, 8, none, none, "i2".data⟩
    (List.mem_cons_of_mem _ (List.mem_cons_self _ _))

/-! ## Decimal digit lemmas -/

theorem digitChar_isDigit (d : Nat) (h : d < 10) :
    (Nat.digitChar d).isDigit = true := by
  interval_cases d <;> decide

theorem charVal_digitChar (d : Nat) (h : d < 10) :
    charVal (Nat.digitChar d) = d := by
  interval_cases d <;> decide

theorem natDigits_ne_nil (n : Nat) : natDigits n ≠ [] := by
  rw [natDigits]
  split
  · simp
  · simp

theorem natDigits_all_digit (n : Nat) : ∀ c ∈ natDigits n, c.isDigit = true := by
  induction n using Nat.strong_induction_on with
  | _ n ih =>
    rw [natDigits]
    split
    · next h =>
      intro c hc
      rw [List.mem_singleton] at hc
      subst hc
      exact digitChar_isDigit n h
    · next h =>
      intro c hc
      rcases List.mem_append.mp hc with h1 | h1
      · exact ih (n / 10) (Nat.div_lt_self (by omega) (by omega)) c h1
      · rw [List.mem_singleton] at h1
        subst h1
        exact digitChar_isDigit _ (Nat.mod_lt _ (by omega))

theorem digitsToNat_concat (a : List Char) (c : Char) :
    digitsToNat (a ++ [c]) = 10 * digitsToNat a + charVal c := by
  simp only [digitsToNat, List.foldl_append, List.foldl]
  omega

theorem digitsToNat_natDigits (n : Nat) : digitsToNat (natDigits n) = n := by
  induction n using Nat.strong_induction_on with
  | _ n ih =>
    rw [natDigits]
    split
    · next h =>
      simp only [digitsToNat, List.foldl]
      rw [charVal_digitChar n h]
      omega
    · next h =>
      rw [digitsToNat_concat, ih (n / 10) (Nat.div_lt_self (by omega) (by omega)),
        charVal_digitChar _ (Nat.mod_lt _ (by omega))]
      omega

theorem natDigits_length_le : ∀ n k : Nat, 1 ≤ k → n < 10 ^ k →
    (natDigits n).length ≤ k := by
  intro n
  induction n using Nat.strong_induction_on with
  | _ n ih =>
    intro k hk hn
    rw [natDigits]
    split
    · simpa using hk
    · next h =>
      push_neg at h
      have hk2 : 2 ≤ k := by
        rcases Nat.lt_or_ge k 2 with hlt | hge
        · interval_cases k
          · norm_num at hn
            omega
        · exact hge
      have hdiv : n / 10 < 10 ^ (k - 1) := by
        rw [Nat.div_lt_iff_lt_mul (by omega)]
        calc n < 10 ^ k := hn
          _ = 10 ^ (k - 1) * 10 := by
              rw [← pow_succ]
              congr 1
              omega
      have hlen := ih (n / 10) (Nat.div_lt_self (by omega) (by omega))
        (k - 1) (by omega) hdiv
      simp only [List.length_append, List.length_cons, List.length_nil]
      omega

theorem digitsToNat_replicate_zero (k : Nat) (ds : List Char) :
    digitsToNat (List.replicate k '0' ++ ds) = digitsToNat ds := by
  induction k with
  | zero => simp
  | succ k ihk =>
    rw [List.replicate_succ, List.cons_append]
    show digitsToNat ('0' :: (List.replicate k '0' ++ ds)) = digitsToNat ds
    simp only [digitsToNat, List.foldl] at ihk ⊢
    convert ihk using 2

theorem digitsToNat_append_zeros (ds : List Char) (z : Nat) :
    digitsToNat (ds ++ List.replicate z '0') = digitsToNat ds * 10 ^ z := by
  induction z with
  | zero => simp
  | succ z ihz =>
    rw [List.replicate_succ', ← List.append_assoc, digitsToNat_concat, ihz]
    have : charVal '0' = 0 := by decide
    rw [this]
    ring

/-! ## takeWhile / dropWhile splitting -/

theorem takeWhile_all_append (p : Char → Bool) (a : List Char) (b : Char)
    (t : List Char) (ha : ∀ c ∈ a, p c = true) (hb : p b = false) :
    (a ++ b :: t).takeWhile p = a ∧ (a ++ b :: t).dropWhile p = b :: t := by
  induction a with
  | nil =>
    constructor
    · rw [List.nil_append, List.takeWhile_cons, hb]
      simp
    · rw [List.nil_append, List.dropWhile_cons, hb]
      simp
  | cons c a' iha =>
    have hc : p c = true := ha c (List.mem_cons_self c a')
    have iha2 := iha (fun x hx => ha x (List.mem_cons_of_mem c hx))
    constructor
    · rw [List.cons_append, List.takeWhile_cons, hc, if_pos rfl, iha2.1]
    · rw [List.cons_append, List.dropWhile_cons, hc, if_pos rfl, iha2.2]

theorem takeWhile_all (p : Char → Bool) (a : List Char)
    (ha : ∀ c ∈ a, p c = true) :
    a.takeWhile p = a ∧ a.dropWhile p = [] := by
  have hd : a.dropWhile p = [] := List.dropWhile_eq_nil_iff.mpr ha
  refine ⟨?_, hd⟩
  have := List.takeWhile_append_dropWhile p a
  rw [hd, List.append_nil] at this
  exact this

/-! ## `parseFloat` on the writer's decimal forms -/

theorem isDigit_ne_dash (c : Char) (h : c.isDigit = true) : ¬ c = '-' := by
  intro hc
  subst hc
  exact absurd h (by decide)

theorem parseFloat_cons_digit (c : Char) (rest : List Char)
    (hc : c.isDigit = true) :
    parseFloat (c :: rest) = parseUFloat (c :: rest) := by
  rw [parseFloat, if_neg (isDigit_ne_dash c hc)]

theorem parseFloat_neg (rest : List Char) :
    parseFloat ('-' :: rest) = (parseUFloat rest).map (fun q => -q) := by
  rw [parseFloat, if_pos rfl]

theorem parseUFloat_digits (ds : List Char) (hne : ds ≠ [])
    (hd : ∀ c ∈ ds, c.isDigit = true) :
    parseUFloat ds = some (digitsToNat ds : ℚ) := by
  obtain ⟨htake, hdrop⟩ := takeWhile_all Char.isDigit ds hd
  rw [parseUFloat]
  simp only [htake, hdrop]
  rw [if_neg (by simpa [List.isEmpty_iff] using hne)]

theorem parseUFloat_point (ip f : List Char)
    (hip : ∀ c ∈ ip, c.isDigit = true) (hipne : ip ≠ [])
    (hf : ∀ c ∈ f, c.isDigit = true) :
    parseUFloat (ip ++ '.' :: f) =
      some ((digitsToNat ip : ℚ) + (digitsToNat f : ℚ) / 10 ^ f.length) := by
  obtain ⟨htake, hdrop⟩ :=
    takeWhile_all_append Char.isDigit ip '.' f hip (by decide)
  rw [parseUFloat]
  simp only [htake, hdrop]
  rw [if_pos]
  rw [Bool.and_eq_true, Bool.and_eq_true]
  refine ⟨⟨by simp, List.all_eq_true.mpr hf⟩, ?_⟩
  have hlen : ip.length + f.length ≠ 0 := by
    have : ip.length ≠ 0 := fun hc => hipne (List.length_eq_zero.mp hc)
    omega
  simpa using hlen

/-! ## `rstrip('0')` -/

theorem rstrip0_decomp (l : List Char) :
    ∃ z, l = rstrip0 l ++ List.replicate z '0' := by
  refine ⟨(l.reverse.takeWhile (fun c => decide (c = '0'))).length, ?_⟩
  have hrep : l.reverse.takeWhile (fun c => decide (c = '0')) =
      List.replicate (l.reverse.takeWhile (fun c => decide (c = '0'))).length
        '0' :=
    List.eq_replicate_of_mem (fun b hb => by
      simpa using List.mem_takeWhile_imp hb)
  conv_lhs => rw [← List.reverse_reverse l,
    ← List.takeWhile_append_dropWhile (fun c => decide (c = '0')) l.reverse]
  rw [List.reverse_append, rstrip0]
  congr 1
  conv_lhs => rw [hrep]
  rw [List.reverse_replicate]

theorem mem_rstrip0 (l : List Char) (c : Char) (h : c ∈ rstrip0 l) : c ∈ l := by
  obtain ⟨z, hz⟩ := rstrip0_decomp l
  rw [hz]
  exact List.mem_append_left _ h

theorem length_rstrip0_add (l : List Char) :
    ∃ z, l = rstrip0 l ++ List.replicate z '0' ∧
      (rstrip0 l).length + z = l.length := by
  obtain ⟨z, hz⟩ := rstrip0_decomp l
  refine ⟨z, hz, ?_⟩
  conv_rhs => rw [hz]
  simp

theorem rstrip0_append_dot (x y : List Char) :
    rstrip0 (x ++ '.' :: y) = x ++ '.' :: rstrip0 y := by
  rw [rstrip0, rstrip0]
  have hrev : (x ++ '.' :: y).reverse = y.reverse ++ '.' :: x.reverse := by
    rw [List.reverse_append, List.reverse_cons, List.append_assoc]
    simp
  rw [hrev, List.dropWhile_append]
  by_cases hemp : (y.reverse.dropWhile (fun c => decide (c = '0'))).isEmpty = true
  · rw [if_pos hemp, List.dropWhile_cons]
    rw [List.isEmpty_iff] at hemp
    rw [hemp]
    simp
  · rw [if_neg hemp, List.reverse_append, List.reverse_cons]
    simp

theorem rstrip0_cons_of_exists (a : Char) (l : List Char)
    (h : ∃ c ∈ l, ¬ c = '0') : rstrip0 (a :: l) = a :: rstrip0 l := by
  rw [rstrip0, rstrip0, List.reverse_cons, List.dropWhile_append]
  have hne : ¬ (l.reverse.dropWhile (fun c => decide (c = '0'))).isEmpty = true := by
    rw [List.isEmpty_iff, List.dropWhile_eq_nil_iff]
    intro hall
    obtain ⟨c, hc, hcne⟩ := h
    have := hall c (List.mem_reverse.mpr hc)
    simp at this
    exact hcne this
  rw [if_neg hne, List.reverse_append]
  simp

/-! ## The fixed-point format round trip -/

theorem roundHalfEven_intCast (n : ℤ) : roundHalfEven (n : ℚ) = n := by
  rw [roundHalfEven]
  simp only [Int.floor_intCast, sub_self]
  norm_num

/-- `padZeros` facts. -/
theorem padZeros_all_digit (w : Nat) (s : List Char)
    (hs : ∀ c ∈ s, c.isDigit = true) : ∀ c ∈ padZeros w s, c.isDigit = true := by
  intro c hc
  rcases List.mem_append.mp hc with h1 | h1
  · rw [List.eq_of_mem_replicate h1]
    decide
  · exact hs c h1

theorem padZeros_length (w : Nat) (s : List Char) (hs : s.length ≤ w) :
    (padZeros w s).length = w := by
  simp [padZeros]
  omega

theorem digitsToNat_padZeros (w : Nat) (s : List Char) :
    digitsToNat (padZeros w s) = digitsToNat s :=
  digitsToNat_replicate_zero _ s

/-- The unsigned digits-dot-digits payload of `format(·, '.32f')`, with its
trailing zeros stripped, parses back to the exact value `a / 10 ^ 32`. -/
theorem parseUFloat_fmt_core (a : Nat) :
    parseUFloat (natDigits (a / 10 ^ 32) ++
      '.' :: rstrip0 (padZeros 32 (natDigits (a % 10 ^ 32)))) =
      some ((a : ℚ) / 10 ^ 32) := by
  have hFlt : a % 10 ^ 32 < 10 ^ 32 := Nat.mod_lt _ (by norm_num)
  have hdig32 : ∀ c ∈ padZeros 32 (natDigits (a % 10 ^ 32)), c.isDigit = true :=
    padZeros_all_digit _ _ (natDigits_all_digit _)
  have hlen32 : (padZeros 32 (natDigits (a % 10 ^ 32))).length = 32 :=
    padZeros_length _ _ (natDigits_length_le _ 32 (by norm_num) hFlt)
  have hval32 : digitsToNat (padZeros 32 (natDigits (a % 10 ^ 32))) = a % 10 ^ 32 := by
    rw [digitsToNat_padZeros, digitsToNat_natDigits]
  obtain ⟨z, hz, hzlen⟩ := length_rstrip0_add (padZeros 32 (natDigits (a % 10 ^ 32)))
  have hf'dig : ∀ c ∈ rstrip0 (padZeros 32 (natDigits (a % 10 ^ 32))),
      c.isDigit = true := fun c hc => hdig32 c (mem_rstrip0 _ _ hc)
  have hzle : (rstrip0 (padZeros 32 (natDigits (a % 10 ^ 32)))).length + z = 32 := by
    omega
  have hFsplit : a % 10 ^ 32 =
      digitsToNat (rstrip0 (padZeros 32 (natDigits (a % 10 ^ 32)))) * 10 ^ z := by
    conv_lhs => rw [← hval32, hz]
    rw [digitsToNat_append_zeros]
  rw [parseUFloat_point _ _ (natDigits_all_digit _) (natDigits_ne_nil _) hf'dig]
  congr 1
  rw [digitsToNat_natDigits]
  have hnat : a = a / 10 ^ 32 * 10 ^ 32 +
      digitsToNat (rstrip0 (padZeros 32 (natDigits (a % 10 ^ 32)))) * 10 ^ z := by
    have hdm := Nat.div_add_mod a (10 ^ 32)
    rw [← hFsplit]
    omega
  have hcast : (a : ℚ) = (a / 10 ^ 32 : ℕ) * 10 ^ 32 +
      (digitsToNat (rstrip0 (padZeros 32 (natDigits (a % 10 ^ 32)))) : ℚ) *
        10 ^ z := by
    exact_mod_cast congrArg (fun n : ℕ => (n : ℚ)) hnat
  rw [hcast]
  have h10 : ((10 : ℚ)) ^
      (rstrip0 (padZeros 32 (natDigits (a % 10 ^ 32)))).length * 10 ^ z =
      10 ^ 32 := by
    rw [← pow_add, hzle]
  rw [← h10]
  have hpow : ((10 : ℚ)) ^
      (rstrip0 (padZeros 32 (natDigits (a % 10 ^ 32)))).length ≠ 0 := by
    positivity
  have hpz : ((10 : ℚ)) ^ z ≠ 0 := by positivity
  field_simp
  ring

/-- `format(q, '.32f').rstrip('0')` parses back to exactly `q` whenever
`q` is an integer multiple of `10 ^ (-32)` (so the 32-digit rendering was
exact). -/
theorem parse_fmt32 (q : ℚ) (h : (q * 10 ^ 32).den = 1) :
    parseFloat (rstrip0 (fmt32 q)) = some q := by
  have hq32 : ((q * 10 ^ 32).num : ℚ) = q * 10 ^ 32 := by
    have := Rat.num_div_den (q * 10 ^ 32)
    rw [h] at this
    simpa using this
  have hround : roundHalfEven (q * 10 ^ 32) = (q * 10 ^ 32).num := by
    conv_lhs => rw [← hq32]
    rw [roundHalfEven_intCast]
  have hq : q = ((q * 10 ^ 32).num : ℚ) / 10 ^ 32 := by
    rw [hq32, mul_div_assoc,
      div_self (by positivity : ((10 : ℚ) ^ 32) ≠ 0), mul_one]
  set N := (q * 10 ^ 32).num with hNdef
  have hfmt : fmt32 q = (if q < 0 then ['-'] else []) ++
      natDigits (N.natAbs / 10 ^ 32) ++
      '.' :: padZeros 32 (natDigits (N.natAbs % 10 ^ 32)) := by
    simp only [fmt32]
    rw [hround]
  set IPd := natDigits (N.natAbs / 10 ^ 32) with hIPd
  set Fd := padZeros 32 (natDigits (N.natAbs % 10 ^ 32)) with hFd
  by_cases hneg : q < 0
  · rw [hfmt, if_pos hneg, List.singleton_append, List.cons_append,
      rstrip0_cons_of_exists '-' (IPd ++ '.' :: Fd)
        ⟨'.', List.mem_append_right _ (List.mem_cons_self _ _), by decide⟩,
      rstrip0_append_dot, parseFloat_neg, hIPd, hFd, parseUFloat_fmt_core]
    have hNneg : N < 0 := by
      by_contra hc
      push_neg at hc
      have h1 : (0 : ℚ) ≤ q * 10 ^ 32 := by
        rw [← hq32]
        exact_mod_cast hc
      have h2 : q * 10 ^ 32 < 0 :=
        mul_neg_of_neg_of_pos hneg (by positivity)
      linarith
    have hcast : ((N.natAbs : ℕ) : ℚ) = -(N : ℚ) := by
      rw [Int.cast_natAbs]
      exact_mod_cast abs_of_neg hNneg
    show some (-(((N.natAbs : ℕ) : ℚ) / 10 ^ 32)) = some q
    congr 1
    rw [hcast]
    conv_rhs => rw [hq]
    ring
  · push_neg at hneg
    rw [hfmt, if_neg (not_lt.mpr hneg), List.nil_append, rstrip0_append_dot]
    cases hni : IPd with
    | nil => exact absurd hni (hIPd ▸ natDigits_ne_nil _)
    | cons c cs =>
      have hcd : c.isDigit = true :=
        natDigits_all_digit _ c (by rw [← hIPd, hni]; exact List.mem_cons_self c cs)
      rw [List.cons_append, parseFloat_cons_digit c _ hcd,
        ← List.cons_append, ← hni, hIPd, hFd, parseUFloat_fmt_core]
      have hNpos : 0 ≤ N := by
        have h1 : (0 : ℚ) ≤ q * 10 ^ 32 := by positivity
        rw [← hq32] at h1
        exact_mod_cast h1
      have hcast : ((N.natAbs : ℕ) : ℚ) = (N : ℚ) := by
        rw [Int.cast_natAbs]
        exact_mod_cast abs_of_nonneg hNpos
      congr 1
      rw [hcast]
      exact hq.symm

/-! ## The binary64 rounding of `float` -/

theorem roundHalfEven_nonneg (t : ℚ) (h : 0 ≤ t) : 0 ≤ roundHalfEven t := by
  have hf : (0 : ℤ) ≤ ⌊t⌋ := Int.floor_nonneg.mpr h
  show (0 : ℤ) ≤
    if t - (⌊t⌋ : ℚ) < 1 / 2 then ⌊t⌋
    else if 1 / 2 < t - (⌊t⌋ : ℚ) then ⌊t⌋ + 1
    else if ⌊t⌋ % 2 = 0 then ⌊t⌋ else ⌊t⌋ + 1
  split_ifs <;> omega

theorem roundHalfEven_nonpos (t : ℚ) (h : t ≤ 0) : roundHalfEven t ≤ 0 := by
  have hf : ⌊t⌋ ≤ 0 := by
    have h2 := Int.floor_le_floor h
    rwa [Int.floor_zero] at h2
  have hfl : (⌊t⌋ : ℚ) ≤ t := Int.floor_le t
  show (if t - (⌊t⌋ : ℚ) < 1 / 2 then ⌊t⌋
    else if 1 / 2 < t - (⌊t⌋ : ℚ) then ⌊t⌋ + 1
    else if ⌊t⌋ % 2 = 0 then ⌊t⌋ else ⌊t⌋ + 1) ≤ 0
  split_ifs with h1 h2 h3
  · exact hf
  · have h4 : ((⌊t⌋ : ℤ) : ℚ) < 0 := by linarith
    have h5 : ⌊t⌋ < 0 := by exact_mod_cast h4
    omega
  · exact hf
  · rw [not_lt] at h1
    have h4 : ((⌊t⌋ : ℤ) : ℚ) < 0 := by linarith
    have h5 : ⌊t⌋ < 0 := by exact_mod_cast h4
    omega

theorem roundHalfEven_abs_sub_le (t : ℚ) :
    |(roundHalfEven t : ℚ) - t| ≤ 1 / 2 := by
  have hfl : (⌊t⌋ : ℚ) ≤ t := Int.floor_le t
  have hfu : t < ⌊t⌋ + 1 := Int.lt_floor_add_one t
  show |((if t - (⌊t⌋ : ℚ) < 1 / 2 then ⌊t⌋
    else if 1 / 2 < t - (⌊t⌋ : ℚ) then ⌊t⌋ + 1
    else if ⌊t⌋ % 2 = 0 then ⌊t⌋ else ⌊t⌋ + 1 : ℤ) : ℚ) - t| ≤ 1 / 2
  split_ifs with h1 h2 h3
  · rw [abs_le]
    constructor <;> push_cast <;> linarith
  · rw [abs_le]
    constructor <;> push_cast <;> linarith
  · rw [not_lt] at h1 h2
    rw [abs_le]
    constructor <;> push_cast <;> linarith
  · rw [not_lt] at h1 h2
    rw [abs_le]
    constructor <;> push_cast <;> linarith

theorem roundHalfEven_eq_of_abs_lt_half (t : ℚ) (n : ℤ)
    (h : |t - (n : ℚ)| < 1 / 2) : roundHalfEven t = n := by
  rw [abs_lt] at h
  obtain ⟨ha, hb⟩ := h
  by_cases hc : (n : ℚ) ≤ t
  · have hfl : ⌊t⌋ = n := Int.floor_eq_iff.mpr ⟨hc, by push_cast; linarith⟩
    have hr : t - (⌊t⌋ : ℚ) < 1 / 2 := by
      rw [hfl]
      linarith
    show (if t - (⌊t⌋ : ℚ) < 1 / 2 then ⌊t⌋
      else if 1 / 2 < t - (⌊t⌋ : ℚ) then ⌊t⌋ + 1
      else if ⌊t⌋ % 2 = 0 then ⌊t⌋ else ⌊t⌋ + 1) = n
    rw [if_pos hr, hfl]
  · push_neg at hc
    have hfl : ⌊t⌋ = n - 1 :=
      Int.floor_eq_iff.mpr ⟨by push_cast; linarith, by push_cast; linarith⟩
    have hr : 1 / 2 < t - (⌊t⌋ : ℚ) := by
      rw [hfl]
      push_cast
      linarith
    have hr2 : ¬ t - (⌊t⌋ : ℚ) < 1 / 2 := by linarith
    show (if t - (⌊t⌋ : ℚ) < 1 / 2 then ⌊t⌋
      else if 1 / 2 < t - (⌊t⌋ : ℚ) then ⌊t⌋ + 1
      else if ⌊t⌋ % 2 = 0 then ⌊t⌋ else ⌊t⌋ + 1) = n
    rw [if_neg hr2, if_pos hr, hfl]
    omega

/-- `format(q, '.32f').rstrip('0')` always parses back to the decimal
value actually written: the exact value rounded half-to-even at the 32nd
fractional place. -/
theorem parseFloat_fmt32 (q : ℚ) :
    parseFloat (rstrip0 (fmt32 q)) =
      some ((roundHalfEven (q * 10 ^ 32) : ℚ) / 10 ^ 32) := by
  set N := roundHalfEven (q * 10 ^ 32) with hNdef
  have hfmt : fmt32 q = (if q < 0 then ['-'] else []) ++
      natDigits (N.natAbs / 10 ^ 32) ++
      '.' :: padZeros 32 (natDigits (N.natAbs % 10 ^ 32)) := by
    rw [hNdef]
    simp only [fmt32]
  set IPd := natDigits (N.natAbs / 10 ^ 32) with hIPd
  set Fd := padZeros 32 (natDigits (N.natAbs % 10 ^ 32)) with hFd
  by_cases hneg : q < 0
  · rw [hfmt, if_pos hneg, List.singleton_append, List.cons_append,
      rstrip0_cons_of_exists '-' (IPd ++ '.' :: Fd)
        ⟨'.', List.mem_append_right _ (List.mem_cons_self _ _), by decide⟩,
      rstrip0_append_dot, parseFloat_neg, hIPd, hFd, parseUFloat_fmt_core]
    have hNle : N ≤ 0 := by
      rw [hNdef]
      exact roundHalfEven_nonpos _
        (le_of_lt (mul_neg_of_neg_of_pos hneg (by positivity)))
    have hcast : ((N.natAbs : ℕ) : ℚ) = -(N : ℚ) := by
      rw [Int.cast_natAbs]
      exact_mod_cast abs_of_nonpos hNle
    show some (-(((N.natAbs : ℕ) : ℚ) / 10 ^ 32)) = some ((N : ℚ) / 10 ^ 32)
    congr 1
    rw [hcast]
    ring
  · push_neg at hneg
    rw [hfmt, if_neg (not_lt.mpr hneg), List.nil_append, rstrip0_append_dot]
    cases hni : IPd with
    | nil => exact absurd hni (hIPd ▸ natDigits_ne_nil _)
    | cons c cs =>
      have hcd : c.isDigit = true :=
        natDigits_all_digit _ c (by
          rw [← hIPd, hni]
          exact List.mem_cons_self c cs)
      rw [List.cons_append, parseFloat_cons_digit c _ hcd,
        ← List.cons_append, ← hni, hIPd, hFd, parseUFloat_fmt_core]
      have hNpos : 0 ≤ N := by
        rw [hNdef]
        exact roundHalfEven_nonneg _ (mul_nonneg hneg (by positivity))
      have hcast : ((N.natAbs : ℕ) : ℚ) = (N : ℚ) := by
        rw [Int.cast_natAbs]
        exact_mod_cast abs_of_nonneg hNpos
      congr 1
      rw [hcast]

/-- `float` is the identity on every value that is already the value of a
binary64 double. -/
theorem roundToB64_eq_self (x : ℚ) (h : b64Rep x) : roundToB64 x = x := by
  by_cases hx0 : x = 0
  · rw [hx0, roundToB64, if_pos rfl]
  · have hden : (x / 2 ^ b64Scale x).den = 1 := by
      rcases h with h0 | hden
      · exact absurd h0 hx0
      · exact hden
    have hM : (((x / 2 ^ b64Scale x).num : ℤ) : ℚ) = x / 2 ^ b64Scale x := by
      have h2 := Rat.num_div_den (x / 2 ^ b64Scale x)
      rw [hden] at h2
      simpa using h2
    have hR : roundHalfEven (x / 2 ^ b64Scale x) = (x / 2 ^ b64Scale x).num := by
      conv_lhs => rw [← hM]
      rw [roundHalfEven_intCast]
    rw [roundToB64, if_neg hx0, hR, hM,
      div_mul_cancel₀ x (zpow_ne_zero _ (by norm_num : (2 : ℚ) ≠ 0))]

/-- Every power of two is the value of a binary64 double (in the unbounded
exponent range of the model). -/
theorem b64Rep_zpow (z : ℤ) : b64Rep ((2 : ℚ) ^ z) := by
  right
  have hpos : (0 : ℚ) < 2 ^ z := zpow_pos (by norm_num) z
  have hlog : Int.log 2 |(2 : ℚ) ^ z| = z := by
    rw [abs_of_pos hpos]
    have h1 : Int.log 2 (((2 : ℕ) : ℚ) ^ z) = z :=
      Int.log_zpow (by norm_num : (1 : ℕ) < 2) z
    rwa [show (((2 : ℕ) : ℚ)) = (2 : ℚ) from by norm_num] at h1
  unfold b64Scale
  rw [hlog, ← zpow_sub₀ (by norm_num : (2 : ℚ) ≠ 0),
    show z - (z - 52) = (52 : ℤ) from by omega,
    show ((52 : ℤ)) = ((52 : ℕ) : ℤ) from rfl, zpow_natCast,
    show ((2 : ℚ)) = ((2 : ℤ) : ℚ) from by norm_num, ← Int.cast_pow,
    Rat.den_intCast]

/-- Half of the decimal quantum `10 ^ (-32)` written by `format(·, '.32f')`
is below half an ulp at every scale the safety predicate admits. -/
theorem half_quantum_lt_zpow (z : ℤ) (h : (-107 : ℤ) ≤ z) :
    (1 : ℚ) / (2 * 10 ^ 32) < 2 ^ z := by
  have h1 : (1 : ℚ) / (2 * 10 ^ 32) < 1 / 2 ^ (107 : ℕ) := by
    rw [div_lt_div_iff (by positivity) (by positivity)]
    norm_num
  have h2 : (1 : ℚ) / 2 ^ (107 : ℕ) = 2 ^ ((-107 : ℤ)) := by
    rw [zpow_neg, zpow_ofNat, one_div]
  have h3 : ((2 : ℚ)) ^ ((-107 : ℤ)) ≤ 2 ^ z :=
    zpow_le_zpow_right₀ (by norm_num) h
  calc (1 : ℚ) / (2 * 10 ^ 32) < 1 / 2 ^ (107 : ℕ) := h1
    _ = 2 ^ ((-107 : ℤ)) := h2
    _ ≤ 2 ^ z := h3

/-- Half-ulp recovery: a rational within `10 ^ (-32) / 2` of a binary64
value of ulp at least `2 ^ (-105)` rounds to exactly that value. -/
theorem roundToB64_recover (x q : ℚ) (hx0 : x ≠ 0)
    (hden : (x / 2 ^ b64Scale x).den = 1) (hσle : (-105 : ℤ) ≤ b64Scale x)
    (hq : |q - x| ≤ 1 / (2 * 10 ^ 32)) : roundToB64 q = x := by
  obtain ⟨σ, hσdef⟩ : ∃ s : ℤ, s = b64Scale x := ⟨_, rfl⟩
  rw [← hσdef] at hden hσle
  have hkσ : Int.log 2 |x| = σ + 52 := by
    rw [hσdef]
    unfold b64Scale
    omega
  have hxabs : 0 < |x| := abs_pos.mpr hx0
  have hc2 : ((2 : ℕ) : ℚ) = (2 : ℚ) := by norm_num
  have hxlb : (2 : ℚ) ^ (σ + 52) ≤ |x| := by
    have h1 := Int.zpow_log_le_self (by norm_num : (1 : ℕ) < 2) hxabs
    rw [hc2, hkσ] at h1
    exact h1
  have hxub : |x| < (2 : ℚ) ^ (σ + 53) := by
    have h1 := Int.lt_zpow_succ_log_self (by norm_num : (1 : ℕ) < 2) |x|
    rw [hc2, hkσ, show σ + 52 + 1 = σ + 53 from by omega] at h1
    exact h1
  have h2σ : (0 : ℚ) < 2 ^ σ := zpow_pos (by norm_num) σ
  obtain ⟨M, hM⟩ : ∃ M : ℤ, (M : ℚ) = x / 2 ^ σ := by
    refine ⟨(x / 2 ^ σ).num, ?_⟩
    have h2 := Rat.num_div_den (x / 2 ^ σ)
    rw [hden] at h2
    simpa using h2
  have hxM : x = (M : ℚ) * 2 ^ σ := by
    rw [hM, div_mul_cancel₀ x (ne_of_gt h2σ)]
  have hqx2 : |(|q| - |x|)| ≤ 1 / (2 * 10 ^ 32) :=
    le_trans (abs_abs_sub_abs_le_abs_sub q x) hq
  rw [abs_le] at hqx2
  have hq0 : q ≠ 0 := by
    intro h0
    rw [h0, abs_zero] at hqx2
    have h1 := hqx2.1
    have h2 := half_quantum_lt_zpow (σ + 52) (by omega)
    linarith [hxlb]
  have hqabs : 0 < |q| := abs_pos.mpr hq0
  rw [roundToB64, if_neg hq0]
  by_cases hcase : (2 : ℚ) ^ (σ + 52) ≤ |q|
  · have hMq : |(M : ℚ)| = |x| / 2 ^ σ := by
      rw [hM, abs_div, abs_of_pos h2σ]
    have hMub : |(M : ℚ)| < 2 ^ (53 : ℕ) := by
      rw [hMq, div_lt_iff h2σ, ← zpow_natCast (2 : ℚ) 53,
        ← zpow_add₀ (by norm_num : (2 : ℚ) ≠ 0),
        show ((53 : ℕ) : ℤ) + σ = σ + 53 from by push_cast; omega]
      exact hxub
    have hMint : |M| < 2 ^ 53 := by
      have h1 : |(M : ℚ)| < (2 : ℚ) ^ (53 : ℕ) := hMub
      rw [← Int.cast_abs] at h1
      exact_mod_cast h1
    have hxub2 : |x| ≤ ((2 ^ 53 - 1 : ℤ) : ℚ) * 2 ^ σ := by
      have h1 : |M| ≤ 2 ^ 53 - 1 := by omega
      have h2 : |(M : ℚ)| ≤ ((2 ^ 53 - 1 : ℤ) : ℚ) := by
        rw [← Int.cast_abs]
        exact_mod_cast h1
      have h3 : |x| = |(M : ℚ)| * 2 ^ σ := by
        rw [hMq, div_mul_cancel₀ _ (ne_of_gt h2σ)]
      rw [h3]
      exact mul_le_mul_of_nonneg_right h2 (le_of_lt h2σ)
    have hqub : |q| < (2 : ℚ) ^ (σ + 53) := by
      have hsplit : ((2 ^ 53 - 1 : ℤ) : ℚ) * 2 ^ σ + 2 ^ σ = 2 ^ (σ + 53) := by
        push_cast
        rw [zpow_add₀ (by norm_num : (2 : ℚ) ≠ 0), zpow_ofNat]
        ring
      have hεσ := half_quantum_lt_zpow σ (by omega)
      linarith [hqx2.2]
    have hlogq : Int.log 2 |q| = σ + 52 := by
      have h1 := (Int.zpow_le_iff_le_log (by norm_num : (1 : ℕ) < 2) hqabs).mp
        (by rw [hc2]; exact hcase)
      have h2 := (Int.lt_zpow_iff_log_lt (by norm_num : (1 : ℕ) < 2) hqabs).mp
        (by rw [hc2]; exact hqub)
      omega
    have hscale : b64Scale q = σ := by
      unfold b64Scale
      omega
    rw [hscale]
    have hRHE : roundHalfEven (q / 2 ^ σ) = M := by
      apply roundHalfEven_eq_of_abs_lt_half
      rw [hM, div_sub_div_same, abs_div, abs_of_pos h2σ, div_lt_iff h2σ]
      have hhalf : (1 : ℚ) / 2 * 2 ^ σ = 2 ^ (σ - 1) := by
        rw [zpow_sub₀ (by norm_num : (2 : ℚ) ≠ 0), zpow_one]
        ring
      calc |q - x| ≤ 1 / (2 * 10 ^ 32) := hq
        _ < 2 ^ (σ - 1) := half_quantum_lt_zpow (σ - 1) (by omega)
        _ = 1 / 2 * 2 ^ σ := hhalf.symm
    rw [hRHE]
    exact hxM.symm
  · push_neg at hcase
    have hqlb : (2 : ℚ) ^ (σ + 51) ≤ |q| := by
      have hsplit : (2 : ℚ) ^ (σ + 52) = 2 ^ (σ + 51) + 2 ^ (σ + 51) := by
        rw [show σ + 52 = (σ + 51) + 1 from by omega,
          zpow_add₀ (by norm_num : (2 : ℚ) ≠ 0), zpow_one]
        ring
      have hε51 := half_quantum_lt_zpow (σ + 51) (by omega)
      linarith [hqx2.1, hxlb]
    have hlogq : Int.log 2 |q| = σ + 51 := by
      have h1 := (Int.zpow_le_iff_le_log (by norm_num : (1 : ℕ) < 2) hqabs).mp
        (by rw [hc2]; exact hqlb)
      have h2 := (Int.lt_zpow_iff_log_lt (by norm_num : (1 : ℕ) < 2) hqabs).mp
        (by rw [hc2]; exact hcase)
      omega
    have hscale : b64Scale q = σ - 1 := by
      unfold b64Scale
      omega
    rw [hscale]
    have h2σ1 : (0 : ℚ) < 2 ^ (σ - 1) := zpow_pos (by norm_num) _
    have hx2 : x = ((2 * M : ℤ) : ℚ) * 2 ^ (σ - 1) := by
      push_cast
      rw [hxM, zpow_sub₀ (by norm_num : (2 : ℚ) ≠ 0), zpow_one]
      ring
    have hRHE : roundHalfEven (q / 2 ^ (σ - 1)) = 2 * M := by
      apply roundHalfEven_eq_of_abs_lt_half
      have hMcast : ((2 * M : ℤ) : ℚ) = x / 2 ^ (σ - 1) := by
        rw [hx2, mul_div_cancel_right₀ _ (ne_of_gt h2σ1)]
      rw [hMcast, div_sub_div_same, abs_div, abs_of_pos h2σ1,
        div_lt_iff h2σ1]
      have hhalf : (1 : ℚ) / 2 * 2 ^ (σ - 1) = 2 ^ (σ - 2) := by
        rw [show σ - 1 = (σ - 2) + 1 from by omega,
          zpow_add₀ (by norm_num : (2 : ℚ) ≠ 0), zpow_one]
        ring
      calc |q - x| ≤ 1 / (2 * 10 ^ 32) := hq
        _ < 2 ^ (σ - 2) := half_quantum_lt_zpow (σ - 2) (by omega)
        _ = 1 / 2 * 2 ^ (σ - 1) := hhalf.symm
    rw [hRHE]
    exact hx2.symm

/-- The full `float(format(x, '.32f').rstrip('0'))` round trip is the
identity on every safe binary64 value. -/
theorem pyParse_fmt32 (x : ℚ) (hx : b64Safe x) :
    pyFloat (rstrip0 (fmt32 x)) = some x := by
  rw [pyFloat, parseFloat_fmt32, Option.map_some']
  by_cases hx0 : x = 0
  · subst hx0
    have h0 : roundHalfEven ((0 : ℚ) * 10 ^ 32) = 0 := by
      rw [zero_mul, show ((0 : ℚ)) = (((0 : ℤ)) : ℚ) from by norm_num,
        roundHalfEven_intCast]
    rw [h0]
    norm_num [roundToB64]
  · have hcond : (x / 2 ^ b64Scale x).den = 1 ∧ (-105 : ℤ) ≤ b64Scale x := by
      rcases hx with h0 | hc
      · exact absurd h0 hx0
      · exact hc
    congr 1
    apply roundToB64_recover x _ hx0 hcond.1 hcond.2
    have h1 : |(roundHalfEven (x * 10 ^ 32) : ℚ) - x * 10 ^ 32| ≤ 1 / 2 :=
      roundHalfEven_abs_sub_le _
    have h10 : (0 : ℚ) < 10 ^ 32 := by positivity
    rw [show (roundHalfEven (x * 10 ^ 32) : ℚ) / 10 ^ 32 - x =
        ((roundHalfEven (x * 10 ^ 32) : ℚ) - x * 10 ^ 32) / 10 ^ 32 from by
      field_simp
      ring]
    rw [abs_div, abs_of_pos h10, div_le_iff h10]
    calc |(roundHalfEven (x * 10 ^ 32) : ℚ) - x * 10 ^ 32| ≤ 1 / 2 := h1
      _ = 1 / (2 * 10 ^ 32) * 10 ^ 32 := by ring

/-! ## Splitting lemmas -/

theorem splitOnChar_ne_nil (sep : Char) (s : List Char) :
    splitOnChar sep s ≠ [] := by
  cases s with
  | nil => simp [splitOnChar]
  | cons c rest =>
    rw [splitOnChar]
    split
    · simp
    · cases hsp : splitOnChar sep rest with
      | nil => simp
      | cons p ps => simp

theorem splitOnChar_no_sep (sep : Char) :
    ∀ s : List Char, (∀ c ∈ s, ¬ c = sep) → splitOnChar sep s = [s]
  | [], _ => rfl
  | c :: rest, h => by
    rw [splitOnChar, if_neg (h c (List.mem_cons_self c rest)),
      splitOnChar_no_sep sep rest (fun x hx => h x (List.mem_cons_of_mem c hx))]

theorem splitOnChar_sep_append (sep : Char) :
    ∀ (a rest : List Char), (∀ c ∈ a, ¬ c = sep) →
      splitOnChar sep (a ++ sep :: rest) = a :: splitOnChar sep rest
  | [], rest, _ => by
    rw [List.nil_append, splitOnChar, if_pos rfl]
  | c :: a', rest, h => by
    rw [List.cons_append, splitOnChar, if_neg (h c (List.mem_cons_self c a')),
      splitOnChar_sep_append sep a' rest
        (fun x hx => h x (List.mem_cons_of_mem c hx))]

theorem splitOnPair_ne_nil (a b : Char) : ∀ s, splitOnPair a b s ≠ []
  | [] => by simp [splitOnPair]
  | [c] => by simp [splitOnPair]
  | c :: d :: rest => by
    rw [splitOnPair]
    split
    · simp
    · cases hsp : splitOnPair a b (d :: rest) with
      | nil => exact absurd hsp (splitOnPair_ne_nil a b (d :: rest))
      | cons p ps => simp

theorem splitOnPair_no_sep (a b : Char) :
    ∀ s, (∀ c ∈ s, ¬ c = a) → splitOnPair a b s = [s]
  | [], _ => rfl
  | [c], _ => rfl
  | c :: d :: rest, h => by
    have hc : ¬ c = a := h c (List.mem_cons_self _ _)
    rw [splitOnPair, if_neg (by simp [hc]),
      splitOnPair_no_sep a b (d :: rest)
        (fun x hx => h x (List.mem_cons_of_mem c hx))]

theorem splitOnPair_sep_append (a b : Char) :
    ∀ (k v : List Char), (∀ c ∈ k, ¬ c = a) →
      splitOnPair a b (k ++ a :: b :: v) = k :: splitOnPair a b v
  | [], v, _ => by
    rw [List.nil_append, splitOnPair, if_pos (by simp)]
  | c :: k', v, h => by
    have hc : ¬ c = a := h c (List.mem_cons_self _ _)
    have hrec := splitOnPair_sep_append a b k' v
      (fun x hx => h x (List.mem_cons_of_mem c hx))
    cases hk : k' ++ a :: b :: v with
    | nil => exact absurd hk (by simp)
    | cons e rest' =>
      rw [List.cons_append, hk, splitOnPair, if_neg (by simp [hc]), ← hk, hrec]

/-- `split(': ')[0]`/`[-1]` on a well-formed `key: value` piece. -/
theorem splitOnPair_kv (k v : List Char)
    (hk : ∀ c ∈ k, ¬ c = ':') (hv : ∀ c ∈ v, ¬ c = ':') :
    splitOnPair ':' ' ' (k ++ ':' :: ' ' :: v) = [k, v] := by
  rw [splitOnPair_sep_append ':' ' ' k v hk, splitOnPair_no_sep ':' ' ' v hv]

/-! ## `strip` lemmas -/

theorem lstripWs_of_head (c : Char) (t : List Char) (hc : pyWs c = false) :
    lstripWs (c :: t) = c :: t := by
  rw [lstripWs, List.dropWhile_cons, hc]
  simp

theorem stripWs_eq_self (s : List Char) (h : ∀ c ∈ s, pyWs c = false) :
    stripWs s = s := by
  have h1 : lstripWs s = s := by
    cases s with
    | nil => rfl
    | cons c t => exact lstripWs_of_head c t (h c (List.mem_cons_self c t))
  rw [stripWs, h1, rstripWs]
  have h2 : s.reverse.dropWhile pyWs = s.reverse := by
    cases hs : s.reverse with
    | nil => rfl
    | cons c t =>
      rw [List.dropWhile_cons,
        h c (by rw [← List.mem_reverse, hs]; exact List.mem_cons_self c t)]
      simp
  rw [h2, List.reverse_reverse]

theorem stripWs_cons_space (s : List Char) : stripWs (' ' :: s) = stripWs s := by
  rw [stripWs, stripWs, lstripWs, lstripWs, List.dropWhile_cons,
    if_pos (by decide)]

theorem stripWs_edges (c : Char) (mid : List Char) (d : Char)
    (hc : pyWs c = false) (hd : pyWs d = false) :
    stripWs (c :: (mid ++ [d])) = c :: (mid ++ [d]) := by
  rw [stripWs, lstripWs_of_head _ _ hc, rstripWs]
  have hrev : (c :: (mid ++ [d])).reverse = d :: (mid.reverse ++ [c]) := by
    simp
  rw [hrev, List.dropWhile_cons, hd]
  simp

theorem rstripWs_semi_space (x : List Char) :
    rstripWs (x ++ [';', ' ']) = x ++ [';'] := by
  rw [rstripWs]
  have hrev : (x ++ [';', ' ']).reverse = ' ' :: ';' :: x.reverse := by simp
  rw [hrev, List.dropWhile_cons, if_pos (by decide), List.dropWhile_cons,
    if_neg (by decide)]
  simp

theorem rstripWs_append_of_ne (x y : List Char) (h : rstripWs y ≠ []) :
    rstripWs (x ++ y) = x ++ rstripWs y := by
  rw [rstripWs, List.reverse_append, List.dropWhile_append]
  have hne : ¬ (y.reverse.dropWhile pyWs).isEmpty = true := by
    rw [List.isEmpty_iff]
    intro hc
    apply h
    rw [rstripWs, hc]
    rfl
  rw [if_neg hne, List.reverse_append, List.reverse_reverse, rstripWs]

/-! ## Character classes -/

theorem digit_safe (c : Char) (h : c.isDigit = true) :
    ¬ c = ';' ∧ ¬ c = ':' ∧ pyWs c = false := by
  refine ⟨fun hc => by subst hc; exact absurd h (by decide),
    fun hc => by subst hc; exact absurd h (by decide), ?_⟩
  cases hw : pyWs c with
  | false => rfl
  | true =>
    exfalso
    rw [pyWs] at hw
    simp only [Bool.or_eq_true, decide_eq_true_eq] at hw
    rcases hw with ((h1 | h1) | h1) | h1 <;> (subst h1; exact absurd h (by decide))

theorem safeChars_spec (s : List Char) (h : safeChars s = true) :
    ∀ c ∈ s, ¬ c = ';' ∧ ¬ c = ':' ∧ pyWs c = false := by
  rw [safeChars, List.all_eq_true] at h
  intro c hc
  have := h c hc
  simp only [Bool.and_eq_true, Bool.not_eq_true', decide_eq_false_iff_not] at this
  refine ⟨this.1.1, this.1.2, ?_⟩
  simpa using this.2

/-- Every character of the stripped `format` output is a digit, `'-'` or
`'.'`. -/
theorem mem_fmt32_class (q : ℚ) (c : Char) (h : c ∈ rstrip0 (fmt32 q)) :
    c.isDigit = true ∨ c = '-' ∨ c = '.' := by
  have hmem : c ∈ fmt32 q := mem_rstrip0 _ _ h
  simp only [fmt32, List.mem_append, List.mem_cons] at hmem
  rcases hmem with (hs | hd) | hdot | hp
  · by_cases hq : q < 0
    · rw [if_pos hq] at hs
      exact Or.inr (Or.inl (List.mem_singleton.mp hs))
    · rw [if_neg hq] at hs
      exact absurd hs (List.not_mem_nil c)
  · exact Or.inl (natDigits_all_digit _ c hd)
  · exact Or.inr (Or.inr hdot)
  · exact Or.inl (padZeros_all_digit _ _ (natDigits_all_digit _) c hp)

theorem fmt32_safe (q : ℚ) :
    ∀ c ∈ rstrip0 (fmt32 q), ¬ c = ';' ∧ ¬ c = ':' ∧ pyWs c = false := by
  intro c hc
  rcases mem_fmt32_class q c hc with hd | hdash | hdot
  · exact digit_safe c hd
  · subst hdash
    exact ⟨by decide, by decide, by decide⟩
  · subst hdot
    exact ⟨by decide, by decide, by decide⟩

theorem natDigits_safe (n : Nat) :
    ∀ c ∈ natDigits n, ¬ c = ';' ∧ ¬ c = ':' ∧ pyWs c = false :=
  fun c hc => digit_safe c (natDigits_all_digit n c hc)

/-! ## Field-value round trips -/

theorem utcParse_natDigits (t : Nat) : utcParse (natDigits t) = some t := by
  rw [utcParse,
    if_pos ⟨natDigits_ne_nil t, List.all_eq_true.mpr (natDigits_all_digit t)⟩,
    digitsToNat_natDigits]

theorem parseFloat_natDigits (n : Nat) :
    parseFloat (natDigits n) = some (n : ℚ) := by
  cases hni : natDigits n with
  | nil => exact absurd hni (natDigits_ne_nil n)
  | cons c cs =>
    have hcd : c.isDigit = true :=
      natDigits_all_digit n c (by rw [hni]; exact List.mem_cons_self c cs)
    rw [parseFloat_cons_digit c cs hcd, ← hni,
      parseUFloat_digits _ (natDigits_ne_nil n) (natDigits_all_digit n),
      digitsToNat_natDigits]

/-- `float` applied to the decimal integer string of a channel count. -/
theorem pyFloat_natDigits (n : ℕ) :
    pyFloat (natDigits n) = some (roundToB64 (n : ℚ)) := by
  rw [pyFloat, parseFloat_natDigits, Option.map_some']

theorem pyTrunc_natCast (n : Nat) : (pyTrunc (n : ℚ)).toNat = n := by
  rw [pyTrunc, if_pos (by positivity)]
  rw [show ⌊(n : ℚ)⌋ = (n : ℤ) from by exact_mod_cast Int.floor_intCast (n : ℤ)]
  simp

/-! ## The channel-list round trip -/

theorem joinCS_cons_cons (p p2 : List Char) (rest : List (List Char)) :
    joinCS (p :: p2 :: rest) = p ++ ',' :: ' ' :: joinCS (p2 :: rest) := rfl

theorem joinCS_split : ∀ pieces : List (List Char), pieces ≠ [] →
    (∀ p ∈ pieces, ∀ c ∈ p, ¬ c = ',') →
    splitOnPair ',' ' ' (joinCS pieces) = pieces
  | [], hne, _ => absurd rfl hne
  | [p], _, h => by
    show splitOnPair ',' ' ' p = [p]
    exact splitOnPair_no_sep ',' ' ' p (h p (List.mem_cons_self _ _))
  | p :: p2 :: rest, _, h => by
    rw [joinCS_cons_cons, splitOnPair_sep_append ',' ' ' p _
        (h p (List.mem_cons_self _ _)),
      joinCS_split (p2 :: rest) (by simp)
        (fun x hx => h x (List.mem_cons_of_mem p hx))]

theorem unquote_quoted (s : List Char) :
    unquote (quoteChar :: s ++ [quoteChar]) = some s := by
  show (if quoteChar = quoteChar ∧ s ++ [quoteChar] ≠ [] ∧
      (s ++ [quoteChar]).getLast? = some quoteChar then
        some ((s ++ [quoteChar]).dropLast) else none) = some s
  rw [if_pos ⟨rfl, by simp, List.getLast?_concat s⟩, List.dropLast_concat]

theorem unquoteList_map (l : List (List Char)) :
    unquoteList (l.map (fun s => quoteChar :: s ++ [quoteChar])) = some l := by
  induction l with
  | nil => rfl
  | cons s rest ih =>
    rw [List.map_cons, unquoteList, unquote_quoted, ih]

theorem safeElem_no_comma (s : List Char) (h : safeElem s = true) :
    ∀ c ∈ s, ¬ c = ',' := by
  rw [safeElem, Bool.and_eq_true, List.all_eq_true] at h
  intro c hc
  have := h.2 c hc
  simp only [Bool.and_eq_true, Bool.not_eq_true', decide_eq_false_iff_not] at this
  exact this.1

theorem joinCS_cons_ne_nil (x : List Char) (xs : List (List Char))
    (hx : x ≠ []) : joinCS (x :: xs) ≠ [] := by
  cases xs with
  | nil => simpa [joinCS] using hx
  | cons y ys =>
    rw [joinCS_cons_cons]
    intro hc
    rcases List.append_eq_nil.mp hc with ⟨h1, _⟩
    exact hx h1

/-- Where a character of a `", "`-join can come from. -/
theorem mem_joinCS : ∀ (pieces : List (List Char)) (c : Char),
    c ∈ joinCS pieces → (∃ p ∈ pieces, c ∈ p) ∨ c = ',' ∨ c = ' '
  | [], c, h => absurd h (List.not_mem_nil c)
  | [p], c, h => Or.inl ⟨p, List.mem_cons_self _ _, h⟩
  | p :: p2 :: rest, c, h => by
    rw [joinCS_cons_cons] at h
    rcases List.mem_append.mp h with h1 | h2
    · exact Or.inl ⟨p, List.mem_cons_self _ _, h1⟩
    · rcases List.mem_cons.mp h2 with hcm | h3
      · exact Or.inr (Or.inl hcm)
      · rcases List.mem_cons.mp h3 with hsp | h4
        · exact Or.inr (Or.inr hsp)
        · rcases mem_joinCS (p2 :: rest) c h4 with ⟨q, hq, hcq⟩ | ho
          · exact Or.inl ⟨q, List.mem_cons_of_mem p hq, hcq⟩
          · exact Or.inr ho

theorem chansParse_chansRepr (co : Option (List (List Char)))
    (h : ∀ s ∈ co.getD [], safeElem s = true) :
    chansParse (chansRepr co) = some co := by
  cases co with
  | none => rfl
  | some l =>
    cases l with
    | nil => rfl
    | cons p ps =>
      have hrepr : chansRepr (some (p :: ps)) =
          '[' :: (joinCS ((p :: ps).map
            (fun s => quoteChar :: s ++ [quoteChar])) ++ [']']) := rfl
      have hnone : ¬ ('[' :: (joinCS ((p :: ps).map
          (fun s => quoteChar :: s ++ [quoteChar])) ++ [']']) = noneStr) := by
        intro hc
        have h2 := congrArg (fun s : List Char => s.headD ' ') hc
        have h3 : '[' = 'N' := by simpa [noneStr] using h2
        exact absurd h3 (by decide)
      rw [hrepr, chansParse, if_neg hnone, List.getLast?_concat, if_pos rfl,
        List.dropLast_concat]
      have hne : joinCS ((p :: ps).map
          (fun s => quoteChar :: s ++ [quoteChar])) ≠ [] := by
        rw [List.map_cons]
        exact joinCS_cons_ne_nil _ _ (by simp)
      rw [if_neg hne]
      rw [joinCS_split _ (by simp) ?hcomma, unquoteList_map]
      · rfl
      case hcomma =>
        intro piece hpiece c hc
        rw [List.mem_map] at hpiece
        obtain ⟨s, hs, hmap⟩ := hpiece
        subst hmap
        rcases List.mem_cons.mp hc with hq | hrest
        · subst hq
          decide
        · rcases List.mem_append.mp hrest with hin | hend
          · exact safeElem_no_comma s (h s hs) c hin
          · rw [List.mem_singleton] at hend
            subst hend
            decide

/-- Character-level safety of the rendered channel list: no `';'`, no
`':'`. -/
theorem chansRepr_no_seps (co : Option (List (List Char)))
    (h : ∀ s ∈ co.getD [], safeElem s = true) :
    ∀ c ∈ chansRepr co, ¬ c = ';' ∧ ¬ c = ':' := by
  cases co with
  | none => decide
  | some l =>
    intro c hc
    rw [chansRepr] at hc
    rcases List.mem_cons.mp hc with hb | hrest
    · subst hb
      exact ⟨by decide, by decide⟩
    · rcases List.mem_append.mp hrest with hin | hend
      · rcases mem_joinCS _ c hin with ⟨piece, hpiece, hcp⟩ | (hcm | hsp)
        · rw [List.mem_map] at hpiece
          obtain ⟨s, hs, hmap⟩ := hpiece
          subst hmap
          rcases List.mem_cons.mp hcp with hq | hrest2
          · subst hq
            exact ⟨by decide, by decide⟩
          · rcases List.mem_append.mp hrest2 with hsin | hsend
            · have hsafe : safeChars s = true := by
                have := h s hs
                rw [safeElem, Bool.and_eq_true] at this
                exact this.1
              have := safeChars_spec s hsafe c hsin
              exact ⟨this.1, this.2.1⟩
            · rw [List.mem_singleton] at hsend
              subst hsend
              exact ⟨by decide, by decide⟩
        · subst hcm
          exact ⟨by decide, by decide⟩
        · subst hsp
          exact ⟨by decide, by decide⟩
      · rw [List.mem_singleton] at hend
        subst hend
        exact ⟨by decide, by decide⟩

theorem chansRepr_strip_stable (co : Option (List (List Char))) :
    stripWs (chansRepr co) = chansRepr co := by
  cases co with
  | none => decide
  | some l =>
    rw [chansRepr]
    exact stripWs_edges '[' _ ']' (by decide) (by decide)

/-! ## Structure of the encoded line -/

theorem encodeLine_eq_encKVs (d : Detection) :
    encodeLine d = encKVs (kvList d) := by
  rw [encodeLine, encKVs, kvList, List.map_map]
  rfl

theorem encBody_cons_cons (kv kv2 : List Char × List Char)
    (rest : List (List Char × List Char)) :
    encBody (kv :: kv2 :: rest) =
      kv.1 ++ ':' :: ' ' :: kv.2 ++ ';' :: ' ' :: encBody (kv2 :: rest) := rfl

theorem encKVs_eq_body : ∀ kvs : List (List Char × List Char), kvs ≠ [] →
    encKVs kvs = encBody kvs ++ [';', ' ']
  | [], hne => absurd rfl hne
  | [kv], _ => by
    show encPiece kv.1 kv.2 ++ [] = (kv.1 ++ ':' :: ' ' :: kv.2) ++ [';', ' ']
    rw [List.append_nil]
    simp [encPiece]
  | kv :: kv2 :: rest, _ => by
    show encPiece kv.1 kv.2 ++ encKVs (kv2 :: rest) = _
    rw [encKVs_eq_body (kv2 :: rest) (by simp), encBody_cons_cons, encPiece]
    simp

theorem rstripWs_encKVs (kvs : List (List Char × List Char)) (hne : kvs ≠ []) :
    rstripWs (encKVs kvs) = encBody kvs ++ [';'] := by
  rw [encKVs_eq_body kvs hne, rstripWs_semi_space]

/-! ## Decoding the split line -/

theorem parsePair_piece (cat : List (List Char)) (st : PState)
    (k v : List Char)
    (hk : ∀ c ∈ k, ¬ c = ':') (hkws : stripWs k = k)
    (hv : ∀ c ∈ v, ¬ c = ':') (hvs : stripWs v = v) :
    parsePair cat st (k ++ ':' :: ' ' :: v) = parsePairKV cat st k v := by
  show parsePairKV cat st
      (stripWs ((splitOnPair ':' ' ' (k ++ ':' :: ' ' :: v)).headD []))
      (stripWs ((splitOnPair ':' ' ' (k ++ ':' :: ' ' :: v)).getLastD [])) = _
  rw [splitOnPair_kv k v hk hv]
  show parsePairKV cat st (stripWs k) (stripWs v) = _
  rw [hkws, hvs]

theorem parsePair_piece_sp (cat : List (List Char)) (st : PState)
    (k v : List Char)
    (hk : ∀ c ∈ k, ¬ c = ':') (hkws : stripWs k = k)
    (hv : ∀ c ∈ v, ¬ c = ':') (hvs : stripWs v = v) :
    parsePair cat st (' ' :: (k ++ ':' :: ' ' :: v)) = parsePairKV cat st k v := by
  show parsePairKV cat st
      (stripWs ((splitOnPair ':' ' ' (' ' :: (k ++ ':' :: ' ' :: v))).headD []))
      (stripWs ((splitOnPair ':' ' '
        (' ' :: (k ++ ':' :: ' ' :: v))).getLastD [])) = _
  have hsplit : splitOnPair ':' ' ' ((' ' :: k) ++ ':' :: ' ' :: v) =
      [' ' :: k, v] := by
    rw [splitOnPair_sep_append ':' ' ' (' ' :: k) v ?hs,
      splitOnPair_no_sep ':' ' ' v hv]
    case hs =>
      intro c hc
      rcases List.mem_cons.mp hc with hsp | hck
      · subst hsp
        decide
      · exact hk c hck
  rw [show (' ' :: (k ++ ':' :: ' ' :: v)) = (' ' :: k) ++ ':' :: ' ' :: v from rfl,
    hsplit]
  show parsePairKV cat st (stripWs (' ' :: k)) (stripWs v) = _
  rw [stripWs_cons_space, hkws, hvs]

theorem parsePair_empty (cat : List (List Char)) (st : PState) :
    parsePair cat st [] = .ok st := rfl

theorem parsePairs_cons (cat : List (List Char)) (st : PState)
    (p : List Char) (ps : List (List Char)) :
    parsePairs cat st (p :: ps) =
      (match parsePair cat st p with
       | .ok st2 => parsePairs cat st2 ps
       | .error e => .error e) := rfl

theorem kvsFold_nil (cat : List (List Char)) (st : PState) :
    kvsFold cat st [] = .ok st := rfl

theorem fold_cons_ok {cat : List (List Char)} {st st2 : PState}
    {kv : List Char × List Char} {rest : List (List Char × List Char)}
    (h : parsePairKV cat st kv.1 kv.2 = .ok st2) :
    kvsFold cat st (kv :: rest) = kvsFold cat st2 rest := by
  show (match parsePairKV cat st kv.1 kv.2 with
    | .ok st2 => kvsFold cat st2 rest
    | .error e => .error e) = _
  rw [h]

theorem fold_cons_err {cat : List (List Char)} {st : PState} {e : DecErr}
    {kv : List Char × List Char} {rest : List (List Char × List Char)}
    (h : parsePairKV cat st kv.1 kv.2 = .error e) :
    kvsFold cat st (kv :: rest) = .error e := by
  show (match parsePairKV cat st kv.1 kv.2 with
    | .ok st2 => kvsFold cat st2 rest
    | .error e => .error e) = _
  rw [h]

/-- Parsing the `';'`-split of the stripped encoded line is the fold of
the key/value dispatch over the pairs (with and without the leading space
that `"; "` separators give every piece after the first). -/
theorem parse_encBody (cat : List (List Char)) :
    ∀ (kvs : List (List Char × List Char)) (st : PState), kvs ≠ [] →
    (∀ kv ∈ kvs, SafeKV kv) →
    parsePairs cat st (splitOnChar ';' (encBody kvs ++ [';'])) =
      kvsFold cat st kvs ∧
    parsePairs cat st (splitOnChar ';' (' ' :: (encBody kvs ++ [';']))) =
      kvsFold cat st kvs
  | [], _, hne, _ => absurd rfl hne
  | [kv], st, _, hsafe => by
    obtain ⟨hk, hv, hvs⟩ := hsafe kv (List.mem_cons_self _ _)
    have hkws : stripWs kv.1 = kv.1 :=
      stripWs_eq_self kv.1 (fun c hc => (hk c hc).2.2)
    have hX : ∀ c ∈ kv.1 ++ ':' :: ' ' :: kv.2, ¬ c = ';' := by
      intro c hc
      rcases List.mem_append.mp hc with h1 | h2
      · exact (hk c h1).1
      · rcases List.mem_cons.mp h2 with hcl | h3
        · subst hcl; decide
        · rcases List.mem_cons.mp h3 with hsp | h4
          · subst hsp; decide
          · exact (hv c h4).1
    have hsplit1 : splitOnChar ';' ((kv.1 ++ ':' :: ' ' :: kv.2) ++ ';' :: []) =
        [kv.1 ++ ':' :: ' ' :: kv.2, []] := by
      rw [splitOnChar_sep_append ';' _ [] hX]
      rfl
    have hsplit2 : splitOnChar ';'
        ((' ' :: (kv.1 ++ ':' :: ' ' :: kv.2)) ++ ';' :: []) =
        [' ' :: (kv.1 ++ ':' :: ' ' :: kv.2), []] := by
      rw [splitOnChar_sep_append ';' _ [] ?hsp]
      · rfl
      case hsp =>
        intro c hc
        rcases List.mem_cons.mp hc with hcs | h1
        · subst hcs; decide
        · exact hX c h1
    constructor
    · show parsePairs cat st (splitOnChar ';'
        ((kv.1 ++ ':' :: ' ' :: kv.2) ++ ';' :: [])) = _
      rw [hsplit1, parsePairs_cons,
        parsePair_piece cat st kv.1 kv.2 (fun c hc => (hk c hc).2.1) hkws
          (fun c hc => (hv c hc).2) hvs]
      cases hres : parsePairKV cat st kv.1 kv.2 with
      | ok st2 =>
        show parsePairs cat st2 [[]] = kvsFold cat st [kv]
        rw [show parsePairs cat st2 [[]] = .ok st2 from rfl, fold_cons_ok hres,
          kvsFold_nil]
      | error e =>
        show Except.error e = kvsFold cat st [kv]
        rw [fold_cons_err hres]
    · show parsePairs cat st (splitOnChar ';'
        ((' ' :: (kv.1 ++ ':' :: ' ' :: kv.2)) ++ ';' :: [])) = _
      rw [hsplit2, parsePairs_cons,
        parsePair_piece_sp cat st kv.1 kv.2 (fun c hc => (hk c hc).2.1) hkws
          (fun c hc => (hv c hc).2) hvs]
      cases hres : parsePairKV cat st kv.1 kv.2 with
      | ok st2 =>
        show parsePairs cat st2 [[]] = kvsFold cat st [kv]
        rw [show parsePairs cat st2 [[]] = .ok st2 from rfl, fold_cons_ok hres,
          kvsFold_nil]
      | error e =>
        show Except.error e = kvsFold cat st [kv]
        rw [fold_cons_err hres]
  | kv :: kv2 :: rest, st, _, hsafe => by
    obtain ⟨hk, hv, hvs⟩ := hsafe kv (List.mem_cons_self _ _)
    have hkws : stripWs kv.1 = kv.1 :=
      stripWs_eq_self kv.1 (fun c hc => (hk c hc).2.2)
    have hX : ∀ c ∈ kv.1 ++ ':' :: ' ' :: kv.2, ¬ c = ';' := by
      intro c hc
      rcases List.mem_append.mp hc with h1 | h2
      · exact (hk c h1).1
      · rcases List.mem_cons.mp h2 with hcl | h3
        · subst hcl; decide
        · rcases List.mem_cons.mp h3 with hsp | h4
          · subst hsp; decide
          · exact (hv c h4).1
    have hshape : encBody (kv :: kv2 :: rest) ++ [';'] =
        (kv.1 ++ ':' :: ' ' :: kv.2) ++ ';' ::
          (' ' :: (encBody (kv2 :: rest) ++ [';'])) := by
      rw [encBody_cons_cons]
      simp
    have ihs := parse_encBody cat (kv2 :: rest)
    constructor
    · rw [hshape, splitOnChar_sep_append ';' _ _ hX, parsePairs_cons,
        parsePair_piece cat st kv.1 kv.2 (fun c hc => (hk c hc).2.1) hkws
          (fun c hc => (hv c hc).2) hvs]
      cases hres : parsePairKV cat st kv.1 kv.2 with
      | ok st2 =>
        show parsePairs cat st2
          (splitOnChar ';' (' ' :: (encBody (kv2 :: rest) ++ [';']))) = _
        rw [(ihs st2 (by simp)
          (fun x hx => hsafe x (List.mem_cons_of_mem kv hx))).2,
          fold_cons_ok hres]
      | error e =>
        show Except.error e = kvsFold cat st (kv :: kv2 :: rest)
        rw [fold_cons_err hres]
    · have hshape2 : ' ' :: (encBody (kv :: kv2 :: rest) ++ [';']) =
          (' ' :: (kv.1 ++ ':' :: ' ' :: kv.2)) ++ ';' ::
            (' ' :: (encBody (kv2 :: rest) ++ [';'])) := by
        rw [hshape]
        rfl
      rw [hshape2, splitOnChar_sep_append ';' _ _ ?hsp2, parsePairs_cons,
        parsePair_piece_sp cat st kv.1 kv.2 (fun c hc => (hk c hc).2.1) hkws
          (fun c hc => (hv c hc).2) hvs]
      case hsp2 =>
        intro c hc
        rcases List.mem_cons.mp hc with hcs | h1
        · subst hcs; decide
        · exact hX c h1
      cases hres : parsePairKV cat st kv.1 kv.2 with
      | ok st2 =>
        show parsePairs cat st2
          (splitOnChar ';' (' ' :: (encBody (kv2 :: rest) ++ [';']))) = _
        rw [(ihs st2 (by simp)
          (fun x hx => hsafe x (List.mem_cons_of_mem kv hx))).2,
          fold_cons_ok hres]
      | error e =>
        show Except.error e = kvsFold cat st (kv :: kv2 :: rest)
        rw [fold_cons_err hres]

/-! ## The key dispatch on each serialized key -/

theorem pairKV_template_name {cat : List (List Char)} {st : PState}
    {v : List Char} :
    parsePairKV cat st kTemplateName v = .ok { st with template_name := some v } :=
  rfl

theorem pairKV_typeofdet {cat : List (List Char)} {st : PState} {v : List Char} :
    parsePairKV cat st kTypeofdet v = .ok { st with typeofdet := some v } := rfl

theorem pairKV_threshold_type {cat : List (List Char)} {st : PState}
    {v : List Char} :
    parsePairKV cat st kThresholdType v =
      .ok { st with threshold_type := some v } := rfl

theorem pairKV_id {cat : List (List Char)} {st : PState} {v : List Char} :
    parsePairKV cat st kId v = .ok { st with id := some v } := rfl

theorem pairKV_event_nil {st : PState} {v : List Char} :
    parsePairKV [] st kEvent v = .ok { st with genEvent := true } := rfl

theorem pairKV_detect_time {cat : List (List Char)} {st : PState}
    {v : List Char} {t : Nat} (h : utcParse v = some t) :
    parsePairKV cat st kDetectTime v = .ok { st with detect_time := some t } := by
  rw [show parsePairKV cat st kDetectTime v =
    (match utcParse v with
     | some t => Except.ok { st with detect_time := some t }
     | none => Except.error (.malformed v)) from rfl, h]

theorem pairKV_chans {cat : List (List Char)} {st : PState} {v : List Char}
    {c : Option (List (List Char))} (h : chansParse v = some c) :
    parsePairKV cat st kChans v = .ok { st with chans := some c } := by
  rw [show parsePairKV cat st kChans v =
    (match chansParse v with
     | some c => Except.ok { st with chans := some c }
     | none => Except.error (.malformed v)) from rfl, h]

theorem pairKV_no_chans {cat : List (List Char)} {st : PState} {v : List Char}
    {q : ℚ} (h : pyFloat v = some q) :
    parsePairKV cat st kNoChans v =
      .ok { st with no_chans := some (pyTrunc q).toNat } := by
  rw [show parsePairKV cat st kNoChans v =
    (match pyFloat v with
     | some q => Except.ok { st with no_chans := some (pyTrunc q).toNat }
     | none => Except.error (.malformed v)) from rfl, h]

theorem pairKV_detect_val {cat : List (List Char)} {st : PState}
    {v : List Char} {q : ℚ} (h : pyFloat v = some q) :
    parsePairKV cat st kDetectVal v = .ok { st with detect_val := some q } := by
  rw [show parsePairKV cat st kDetectVal v =
    (match pyFloat v with
     | some q => Except.ok { st with detect_val := some q }
     | none => Except.error (.malformed v)) from rfl, h]

theorem pairKV_threshold {cat : List (List Char)} {st : PState}
    {v : List Char} {q : ℚ} (h : pyFloat v = some q) :
    parsePairKV cat st kThreshold v = .ok { st with threshold := some q } := by
  rw [show parsePairKV cat st kThreshold v =
    (match pyFloat v with
     | some q => Except.ok { st with threshold := some q }
     | none => Except.error (.malformed v)) from rfl, h]

theorem pairKV_threshold_input {cat : List (List Char)} {st : PState}
    {v : List Char} {q : ℚ} (h : pyFloat v = some q) :
    parsePairKV cat st kThresholdInput v =
      .ok { st with threshold_input := some q } := by
  rw [show parsePairKV cat st kThresholdInput v =
    (match pyFloat v with
     | some q => Except.ok { st with threshold_input := some q }
     | none => Except.error (.malformed v)) from rfl, h]

/-- `parseLine` in terms of its three stages. -/
theorem parseLine_of_parts {cat : List (List Char)} {t : List Char} {eo : Bool}
    {line : List Char} {st : PState} {d2 : Detection}
    (hp : parsePairs cat {} (splitOnChar ';' (rstripWs line)) = .ok st)
    (hb : buildDetection st = .ok d2) :
    parseLine cat t eo line = .ok (if st.genEvent then calcEvent t eo d2 else d2) := by
  rw [parseLine, hp]
  show (buildDetection st).bind _ = _
  rw [hb]
  rfl

/-- Decoding the encoded line of a detection whose string fields are
framing-safe, with an empty companion event collection, reconstructs the
detection with the three binary64 statistics replaced by whatever their
rendered forms parse back to, and regenerates the derived event. -/
theorem parseLine_encodeLine_gen (t : List Char) (eo : Bool)
    (tn : List Char) (dt nc : Nat) (dv th ti dv2 th2 ti2 : ℚ)
    (ty tt : List Char) (ch : Option (List (List Char)))
    (ev : Option (List Char)) (di : List Char)
    (htn : safeChars tn = true) (hty : safeChars ty = true)
    (htt : safeChars tt = true) (hid : safeChars di = true)
    (hev : safeChars (ev.getD []) = true)
    (hch : (ch.getD []).all safeElem = true)
    (hnc : roundToB64 (nc : ℚ) = (nc : ℚ))
    (hdv : pyFloat (rstrip0 (fmt32 dv)) = some dv2)
    (hth : pyFloat (rstrip0 (fmt32 th)) = some th2)
    (hti : pyFloat (rstrip0 (fmt32 ti)) = some ti2) :
    parseLine [] t eo (encodeLine ⟨tn, dt, nc, dv, th, ty, tt, ti, ch, ev, di⟩) =
      .ok (regenDet t ⟨tn, dt, nc, dv2, th2, ty, tt, ti2, ch, ev, di⟩) := by
  have strSafe : ∀ s : List Char, safeChars s = true →
      (∀ c ∈ s, ¬ c = ';' ∧ ¬ c = ':') ∧ stripWs s = s := fun s hs =>
    ⟨fun c hc => ⟨(safeChars_spec s hs c hc).1, (safeChars_spec s hs c hc).2.1⟩,
     stripWs_eq_self s (fun c hc => (safeChars_spec s hs c hc).2.2)⟩
  have digSafe : ∀ n : Nat,
      (∀ c ∈ natDigits n, ¬ c = ';' ∧ ¬ c = ':') ∧
        stripWs (natDigits n) = natDigits n := fun n =>
    ⟨fun c hc => ⟨(natDigits_safe n c hc).1, (natDigits_safe n c hc).2.1⟩,
     stripWs_eq_self _ (fun c hc => (natDigits_safe n c hc).2.2)⟩
  have fmtSafe : ∀ q : ℚ,
      (∀ c ∈ rstrip0 (fmt32 q), ¬ c = ';' ∧ ¬ c = ':') ∧
        stripWs (rstrip0 (fmt32 q)) = rstrip0 (fmt32 q) := fun q =>
    ⟨fun c hc => ⟨(fmt32_safe q c hc).1, (fmt32_safe q c hc).2.1⟩,
     stripWs_eq_self _ (fun c hc => (fmt32_safe q c hc).2.2)⟩
  have hkveq : kvList ⟨tn, dt, nc, dv, th, ty, tt, ti, ch, ev, di⟩ =
      [(kTemplateName, tn),
       (kDetectTime, natDigits dt),
       (kNoChans, natDigits nc),
       (kDetectVal, rstrip0 (fmt32 dv)),
       (kThreshold, rstrip0 (fmt32 th)),
       (kTypeofdet, ty),
       (kThresholdType, tt),
       (kThresholdInput, rstrip0 (fmt32 ti)),
       (kChans, chansRepr ch),
       (kEvent, eventStr ev),
       (kId, di)] := rfl
  have hne : kvList ⟨tn, dt, nc, dv, th, ty, tt, ti, ch, ev, di⟩ ≠ [] := by
    rw [hkveq]
    simp
  have hevsafe : (∀ c ∈ eventStr ev, ¬ c = ';' ∧ ¬ c = ':') ∧
      stripWs (eventStr ev) = eventStr ev := by
    cases ev with
    | some e => exact strSafe e (by simpa using hev)
    | none => exact ⟨by decide, by decide⟩
  have hsafe : ∀ kv ∈ kvList ⟨tn, dt, nc, dv, th, ty, tt, ti, ch, ev, di⟩,
      SafeKV kv := by
    intro kv hkv
    rw [hkveq] at hkv
    simp only [List.mem_cons, List.not_mem_nil, or_false] at hkv
    have hkeysafe : ∀ k ∈ detKeys, ∀ c ∈ k,
        ¬ c = ';' ∧ ¬ c = ':' ∧ pyWs c = false := by decide
    rcases hkv with rfl | rfl | rfl | rfl | rfl | rfl | rfl | rfl | rfl | rfl | rfl
    · exact ⟨hkeysafe kTemplateName (by decide), (strSafe tn htn).1, (strSafe tn htn).2⟩
    · exact ⟨hkeysafe kDetectTime (by decide), (digSafe dt).1, (digSafe dt).2⟩
    · exact ⟨hkeysafe kNoChans (by decide), (digSafe nc).1, (digSafe nc).2⟩
    · exact ⟨hkeysafe kDetectVal (by decide), (fmtSafe dv).1, (fmtSafe dv).2⟩
    · exact ⟨hkeysafe kThreshold (by decide), (fmtSafe th).1, (fmtSafe th).2⟩
    · exact ⟨hkeysafe kTypeofdet (by decide), (strSafe ty hty).1, (strSafe ty hty).2⟩
    · exact ⟨hkeysafe kThresholdType (by decide), (strSafe tt htt).1, (strSafe tt htt).2⟩
    · exact ⟨hkeysafe kThresholdInput (by decide), (fmtSafe ti).1, (fmtSafe ti).2⟩
    · exact ⟨hkeysafe kChans (by decide),
        fun c hc => chansRepr_no_seps ch (List.all_eq_true.mp (by simpa using hch)) c hc,
        chansRepr_strip_stable ch⟩
    · exact ⟨hkeysafe kEvent (by decide), hevsafe.1, hevsafe.2⟩
    · exact ⟨hkeysafe kId (by decide), (strSafe di hid).1, (strSafe di hid).2⟩
  have hline : rstripWs (encodeLine ⟨tn, dt, nc, dv, th, ty, tt, ti, ch, ev, di⟩) =
      encBody (kvList ⟨tn, dt, nc, dv, th, ty, tt, ti, ch, ev, di⟩) ++ [';'] := by
    rw [encodeLine_eq_encKVs]
    exact rstripWs_encKVs _ hne
  have hfold : kvsFold [] ({} : PState)
      (kvList ⟨tn, dt, nc, dv, th, ty, tt, ti, ch, ev, di⟩) = .ok
      { template_name := some tn,
        detect_time := some dt,
        no_chans := some (pyTrunc (nc : ℚ)).toNat,
        detect_val := some dv2,
        threshold := some th2,
        typeofdet := some ty,
        threshold_type := some tt,
        threshold_input := some ti2,
        chans := some ch,
        event := none,
        id := some di,
        unknown := [],
        genEvent := true } := by
    rw [hkveq,
      fold_cons_ok pairKV_template_name,
      fold_cons_ok (pairKV_detect_time (utcParse_natDigits dt)),
      fold_cons_ok (pairKV_no_chans (by rw [pyFloat_natDigits, hnc])),
      fold_cons_ok (pairKV_detect_val hdv),
      fold_cons_ok (pairKV_threshold hth),
      fold_cons_ok pairKV_typeofdet,
      fold_cons_ok pairKV_threshold_type,
      fold_cons_ok (pairKV_threshold_input hti),
      fold_cons_ok (pairKV_chans (chansParse_chansRepr ch
        (List.all_eq_true.mp (by simpa using hch)))),
      fold_cons_ok pairKV_event_nil,
      fold_cons_ok pairKV_id,
      kvsFold_nil]
  have hp : parsePairs [] {}
      (splitOnChar ';'
        (rstripWs (encodeLine ⟨tn, dt, nc, dv, th, ty, tt, ti, ch, ev, di⟩))) =
      .ok
      { template_name := some tn,
        detect_time := some dt,
        no_chans := some (pyTrunc (nc : ℚ)).toNat,
        detect_val := some dv2,
        threshold := some th2,
        typeofdet := some ty,
        threshold_type := some tt,
        threshold_input := some ti2,
        chans := some ch,
        event := none,
        id := some di,
        unknown := [],
        genEvent := true } := by
    rw [hline, (parse_encBody [] _ {} hne hsafe).1, hfold]
  rw [parseLine_of_parts hp rfl]
  show Except.ok (calcEvent t eo
    ⟨tn, dt, (pyTrunc (nc : ℚ)).toNat, dv2, th2, ty, tt, ti2, ch, none, di⟩) = _
  rw [pyTrunc_natCast]
  rfl

/-- Decoding the encoded line of a framing-safe detection, with an empty
companion event collection, reconstructs every field and regenerates the
derived event. -/
theorem parseLine_encodeLine (t : List Char) (eo : Bool) (d : Detection)
    (hd : SafeDet d) :
    parseLine [] t eo (encodeLine d) = .ok (regenDet t d) := by
  obtain ⟨tn, dt, nc, dv, th, ty, tt, ti, ch, ev, di⟩ := d
  obtain ⟨htn, hty, htt, hid, hev, hch, hdv, hth, hti, hnc⟩ := hd
  exact parseLine_encodeLine_gen t eo tn dt nc dv th ti dv th ti ty tt ch ev di
    htn hty htt hid hev hch (roundToB64_eq_self _ hnc) (pyParse_fmt32 dv hdv)
    (pyParse_fmt32 th hth) (pyParse_fmt32 ti hti)

theorem readFamily_cons (cat : List (List Char)) (tn : List Char) (eo : Bool)
    (l : List Char) (ls : List (List Char)) :
    readFamily (l :: ls) cat tn eo =
      (match parseLine cat tn eo l with
       | .ok d => (readFamily ls cat tn eo).map (d :: ·)
       | .error e => .error e) := rfl

theorem readFamily_writeFamily (dets : List Detection) (t : List Char)
    (h : ∀ d ∈ dets, SafeDet d) :
    readFamily (writeFamily dets) [] t true = .ok (dets.map (regenDet t)) := by
  induction dets with
  | nil => rfl
  | cons d rest ih =>
    show readFamily (encodeLine d :: writeFamily rest) [] t true = _
    rw [readFamily_cons,
      parseLine_encodeLine t true d (h d (List.mem_cons_self d rest)),
      ih (fun x hx => h x (List.mem_cons_of_mem d hx))]
    rfl

theorem detEq_regen (t : List Char) (d : Detection) :
    detEq d (regenDet t d) = true := by
  simp [detEq, regenDet]

/-- **C1 (amended).** `Decode(Encode(detections))` (with an empty companion
event collection, so derived events are regenerated) succeeds and is
value-equal to the original list in every field used in equality — and in
particular bit-identical on `detect_val`, `threshold` and
`threshold_input` — *provided* each of those three binary64 statistics is
a double that is zero or of magnitude at least `2 ^ (-53)` (about
`1.1e-16`, so `format(x, '.32f')` stays within half an ulp and the
correctly-rounded `float` recovers the double exactly; every realistic
correlation statistic qualifies), the channel count is below `2 ^ 53`, and
the string fields are free of the unescaped framing characters (`';'`,
`':'`, whitespace; the channel identifiers also of `','` and the quote).
Without the magnitude bound the claim is false: see the counterexample. -/
theorem codec_roundtrip_exact32 (dets : List Detection) (t : List Char)
    (h : ∀ d ∈ dets, SafeDet d) :
    readFamily (writeFamily dets) [] t true = .ok (dets.map (regenDet t)) ∧
    ∀ d ∈ dets, detEq d (regenDet t d) = true :=
  ⟨readFamily_writeFamily dets t h, fun d _ => detEq_regen t d⟩

set_option maxRecDepth 4000 in
set_option maxHeartbeats 2000000 in
/-- Witness for C1 (amended): a detection holding the doubles the program
stores for the spec §8 scenario — `detect_val = 2.5`,
`threshold = double(1.23)`, `threshold_input = 8.0` — decodes back
bit-identically.  `2.5` and `8.0` are exact dyadics; `double(1.23)` is the
binary64 value nearest `1.23`, written here as `roundToB64 (123/100)`. -/
theorem codec_roundtrip_exact32_witness :
    (let d0 : Detection := ⟨"a".data, 1000, 5, 5/2, roundToB64 (123/100),
       "corr".data, "MAD".data, 8, some ["PGC.SHZ".data], none, "a_1".data⟩
     readFamily (writeFamily [d0]) [] "a".data true =
       .ok [regenDet "a".data d0] ∧
     detEq d0 (regenDet "a".data d0) = true) := by
  have := codec_roundtrip_exact32
    [⟨"a".data, 1000, 5, 5/2, roundToB64 (123/100), "corr".data,
       "MAD".data, 8, some ["PGC.SHZ".data], none, "a_1".data⟩] "a".data
    (by
      intro d hd
      rw [List.mem_singleton] at hd
      subst hd
      with_unfolding_all decide)
  exact ⟨this.1, this.2 _ (List.mem_singleton.mpr rfl)⟩

set_option maxRecDepth 4000 in
set_option maxHeartbeats 2000000 in
/-- **C1 (counterexample).** The round trip is *not* bit-identical for
every detection list: `2 ^ (-110)` is the exact value of a binary64 double
(it satisfies `b64Rep`, with significand `2 ^ 52` at scale `2 ^ (-162)`),
but it lies below the `2 ^ (-53)` magnitude threshold of the amended
claim, and `format(2 ** -110, '.32f')` rounds it to 32 zero fractional
digits, `rstrip('0')` leaves `"0."`, and `float` returns `0.0`: decode
succeeds, yet the numeric field is not bit-identical and the decoded list
is not value-equal to the original. -/
theorem codec_roundtrip_bitloss_counterexample :
    (let dT : Detection := ⟨"a".data, 1000, 5, 1 / 2 ^ 110,
       roundToB64 (123/100), "corr".data, "MAD".data, 8,
       some ["PGC.SHZ".data], none, "a_1".data⟩
     b64Rep ((1 : ℚ) / 2 ^ 110) ∧
     readFamily (writeFamily [dT]) [] "a".data true =
       .ok [regenDet "a".data { dT with detect_val := 0 }] ∧
     (regenDet "a".data { dT with detect_val := 0 }).detect_val ≠
       dT.detect_val ∧
     detEq dT (regenDet "a".data { dT with detect_val := 0 }) = false) := by
  have hdv : pyFloat (rstrip0 (fmt32 ((1 : ℚ) / 2 ^ 110))) = some 0 := by
    with_unfolding_all decide
  have hth : pyFloat (rstrip0 (fmt32 (roundToB64 ((123 : ℚ) / 100)))) =
      some (roundToB64 ((123 : ℚ) / 100)) :=
    pyParse_fmt32 _ (by with_unfolding_all decide)
  have hti : pyFloat (rstrip0 (fmt32 (8 : ℚ))) = some (8 : ℚ) :=
    pyParse_fmt32 _ (by with_unfolding_all decide)
  have hnc : roundToB64 ((5 : ℕ) : ℚ) = ((5 : ℕ) : ℚ) :=
    roundToB64_eq_self _ (by with_unfolding_all decide)
  have hline := parseLine_encodeLine_gen "a".data true "a".data 1000 5
    ((1 : ℚ) / 2 ^ 110) (roundToB64 ((123 : ℚ) / 100)) (8 : ℚ) 0
    (roundToB64 ((123 : ℚ) / 100)) (8 : ℚ)
    "corr".data "MAD".data (some ["PGC.SHZ".data]) none "a_1".data
    (by decide) (by decide) (by decide) (by decide) (by decide) (by decide)
    hnc hdv hth hti
  refine ⟨?_, ?_, ?_, ?_⟩
  · show b64Rep ((1 : ℚ) / 2 ^ 110)
    rw [show (1 : ℚ) / 2 ^ 110 = (2 : ℚ) ^ ((-110 : ℤ)) from by
      rw [zpow_neg, show ((110 : ℤ)) = ((110 : ℕ) : ℤ) from rfl,
        zpow_natCast, one_div]]
    exact b64Rep_zpow (-110)
  · show readFamily [encodeLine ⟨"a".data, 1000, 5, 1 / 2 ^ 110,
       roundToB64 (123/100), "corr".data, "MAD".data, 8,
       some ["PGC.SHZ".data], none, "a_1".data⟩] [] "a".data true = _
    rw [readFamily_cons, hline]
    rfl
  · show ¬ (0 : ℚ) = 1 / 2 ^ 110
    norm_num
  · with_unfolding_all decide

/-! ## C5: decode failure behaviour -/

theorem parsePairKV_malformed (cat : List (List Char)) (st : PState)
    (k v w : List Char) (h : parsePairKV cat st k v = .error (.malformed w)) :
    w = v := by
  unfold parsePairKV at h
  by_cases h1 : k = kEvent
  · rw [if_pos h1] at h
    by_cases h2 : cat.length = 0
    · rw [if_pos h2] at h
      exact Except.noConfusion h
    · rw [if_neg h2] at h
      cases hf : List.find?
          (fun e => decide ((splitOnChar '/' e).getLastD [] = v)) cat with
      | some el =>
        rw [hf] at h
        exact Except.noConfusion h
      | none =>
        rw [hf] at h
        injection h with h3
        exact DecErr.noConfusion h3
  · rw [if_neg h1] at h
    by_cases h2 : k = kDetectTime
    · rw [if_pos h2] at h
      cases hu : utcParse v with
      | some t =>
        rw [hu] at h
        exact Except.noConfusion h
      | none =>
        rw [hu] at h
        injection h with h3
        injection h3 with h4
        exact h4.symm
    · rw [if_neg h2] at h
      by_cases h3 : k = kChans
      · rw [if_pos h3] at h
        cases hc : chansParse v with
        | some c =>
          rw [hc] at h
          exact Except.noConfusion h
        | none =>
          rw [hc] at h
          injection h with h4
          injection h4 with h5
          exact h5.symm
      · rw [if_neg h3] at h
        by_cases h4 : k = kTemplateName
        · rw [if_pos h4] at h
          exact Except.noConfusion h
        · rw [if_neg h4] at h
          by_cases h5 : k = kTypeofdet
          · rw [if_pos h5] at h
            exact Except.noConfusion h
          · rw [if_neg h5] at h
            by_cases h6 : k = kId
            · rw [if_pos h6] at h
              exact Except.noConfusion h
            · rw [if_neg h6] at h
              by_cases h7 : k = kThresholdType
              · rw [if_pos h7] at h
                exact Except.noConfusion h
              · rw [if_neg h7] at h
                by_cases h8 : k = kNoChans
                · rw [if_pos h8] at h
                  cases hp : pyFloat v with
                  | some q =>
                    rw [hp] at h
                    exact Except.noConfusion h
                  | none =>
                    rw [hp] at h
                    injection h with h9
                    injection h9 with h10
                    exact h10.symm
                · rw [if_neg h8] at h
                  by_cases h9 : k = []
                  · rw [if_pos h9] at h
                    exact Except.noConfusion h
                  · rw [if_neg h9] at h
                    split at h
                    · by_cases h10 : k = kDetectVal
                      · rw [if_pos h10] at h
                        exact Except.noConfusion h
                      · rw [if_neg h10] at h
                        by_cases h11 : k = kThreshold
                        · rw [if_pos h11] at h
                          exact Except.noConfusion h
                        · rw [if_neg h11] at h
                          by_cases h12 : k = kThresholdInput
                          · rw [if_pos h12] at h
                            exact Except.noConfusion h
                          · rw [if_neg h12] at h
                            exact Except.noConfusion h
                    · injection h with h10
                      injection h10 with h11
                      exact h11.symm

theorem readFamily_ok_forall {cat : List (List Char)} {tn : List Char}
    {eo : Bool} : ∀ (lines : List (List Char)) (dets : List Detection),
    readFamily lines cat tn eo = .ok dets →
    ∀ l ∈ lines, ∃ d2, parseLine cat tn eo l = .ok d2
  | [], _, _, l, hl => absurd hl (List.not_mem_nil l)
  | line :: ls, dets, h, l, hl => by
    rw [readFamily_cons] at h
    cases hp : parseLine cat tn eo line with
    | error e =>
      rw [hp] at h
      exact absurd h (by simp)
    | ok d2 =>
      rw [hp] at h
      rcases List.mem_cons.mp hl with rfl | hmem
      · exact ⟨d2, hp⟩
      · cases hr : readFamily ls cat tn eo with
        | error e =>
          rw [hr] at h
          exact absurd h (by simp [Except.map])
        | ok ds => exact readFamily_ok_forall ls ds hr l hmem

/-- **C5 (amended).** During decode (a) every key-value pair whose key is
empty is skipped without error; (b) a pair whose value cannot be parsed
makes decode fail with an error carrying the offending pair's *value* (the
string the failing `float`/`UTCDateTime`/`literal_eval` call was given) —
not the whole line, see the counterexample; and (c) decode aborts rather
than skipping bad lines: a successful decode certifies that every line
parsed. -/
theorem decode_malformed_abort (cat : List (List Char)) (st : PState)
    (pair : List Char) (lines : List (List Char)) (tn : List Char)
    (eo : Bool) :
    (stripWs ((splitOnPair ':' ' ' pair).headD []) = [] →
      parsePair cat st pair = .ok st) ∧
    (∀ w, parsePair cat st pair = .error (.malformed w) →
      w = stripWs ((splitOnPair ':' ' ' pair).getLastD [])) ∧
    (∀ dets, readFamily lines cat tn eo = .ok dets →
      ∀ l ∈ lines, ∃ d2, parseLine cat tn eo l = .ok d2) := by
  refine ⟨?_, ?_, fun dets h l hl => readFamily_ok_forall lines dets h l hl⟩
  · intro hk
    show parsePairKV cat st (stripWs ((splitOnPair ':' ' ' pair).headD []))
      (stripWs ((splitOnPair ':' ' ' pair).getLastD [])) = .ok st
    rw [hk]
    rfl
  · intro w h
    exact parsePairKV_malformed cat st _ _ w h

set_option maxRecDepth 4000 in
set_option maxHeartbeats 2000000 in
/-- Witness for C5 (amended): an empty-key pair is skipped, a concrete
malformed pair's error carries exactly its value, and a successful decode
of an encoded line certifies that line parsed. -/
theorem decode_malformed_abort_witness :
    (parsePair [] {} "  : 5".data = .ok {}) ∧
    ("abc".data =
      stripWs ((splitOnPair ':' ' ' "detect_val: abc".data).getLastD [])) ∧
    (∃ d2, parseLine [] "a".data true
      (encodeLine ⟨"a".data, 1000, 5, 5/2, 5/2, "corr".data,
        "MAD".data, 8, some ["PGC.SHZ".data], none, "a_1".data⟩) = .ok d2) := by
  refine ⟨?_, ?_, ?_⟩
  · exact (decode_malformed_abort [] {} "  : 5".data [] [] true).1 (by decide)
  · exact (decode_malformed_abort [] {} "detect_val: abc".data [] [] true).2.1
      "abc".data (by decide)
  · exact (decode_malformed_abort [] {} [] (writeFamily
      [⟨"a".data, 1000, 5, 5/2, 5/2, "corr".data,
        "MAD".data, 8, some ["PGC.SHZ".data], none, "a_1".data⟩])
      "a".data true).2.2 _
      (readFamily_writeFamily
        [⟨"a".data, 1000, 5, 5/2, 5/2, "corr".data,
          "MAD".data, 8, some ["PGC.SHZ".data], none, "a_1".data⟩] "a".data
        (by
          intro d hd
          rw [List.mem_singleton] at hd
          subst hd
          with_unfolding_all decide))
      _ (List.mem_singleton.mpr rfl)

/-- **C5 (counterexample).** The error raised on a malformed pair does not
name (include the content of) the offending line: decoding the line
`detect_val: abc; ` fails with an error whose carried context is only the
value `abc`, of which the line is not a substring. -/
theorem decode_error_line_counterexample :
    readFamily ["detect_val: abc; ".data] [] "a".data true =
      .error (.malformed "abc".data) ∧
    ¬ ("detect_val: abc; ".data <:+: "abc".data) := by
  constructor
  · decide
  · intro hinf
    have hle := hinf.length_le
    have h1 : ("detect_val: abc; ".data).length = 17 := rfl
    have h2 : ("abc".data).length = 3 := rfl
    omega

end EqcorrscanFamily
